import Mathlib

set_option maxRecDepth 4000

/-!
Verification development for the `neon` help-text formatter.

The definitions below are a shallow embedding of the Python sources
`src/neon/highlighting.py`, `src/neon/formatter.py` and `src/neon/config.py`.
Text is modelled as `List Char`; styled rich text as a plain string plus a
list of style spans, exactly as `rich.text.Text` stores it (`_spans` is a
plain Python list, appended to in program order).  Machine-level collaborator
primitives (`Text.stylize`, `Text.append`) are modelled after their documented
rich semantics: `stylize` ignores empty/out-of-range spans and clamps the end
offset to the text length; `append` is a no-op for the empty string and
otherwise appends one span when a style is given.
-/

namespace Neon

/-- The backtick character, written via its code point. -/
def btChar : Char := Char.ofNat 96

/-- argparse's suppression sentinel (`argparse.SUPPRESS`). -/
def SUPPRESS : String := "==SUPPRESS=="

/-- Truthiness of an optional Python string: `None` and `""` are falsy. -/
def optTruthy (o : Option String) : Bool := (o.getD "") ≠ ""

/-- Python slice `l[a:b]` for `0 ≤ a ≤ b` (clamping like Python). -/
def slice (l : List Char) (a b : Nat) : List Char := (l.take b).drop a

/-- Character at index `i`, if any. -/
def charAt (l : List Char) (i : Nat) : Option Char := (l.drop i).head?

/-- A style span, as stored by `rich.text.Text`: start offset, end offset,
style name. -/
structure Span where
  start : Nat
  stop : Nat
  style : String
deriving DecidableEq, Repr

/-- A rich `Text` object: plain content plus the span list. -/
structure RText where
  plain : List Char
  spans : List Span
deriving DecidableEq, Repr

/-- rich's `Text.stylize(style, start, end)`: skips the span when
`start >= len` or `end <= start`, otherwise appends the span with the end
offset clamped to the text length. -/
def stylize (t : RText) (a b : Nat) (sty : String) : RText :=
  if a ≥ t.plain.length ∨ b ≤ a then t
  else { t with spans := t.spans ++ [⟨a, min t.plain.length b, sty⟩] }

/-- rich's `Text.append(text, style)`: no-op on the empty string, otherwise
appends the characters and, when a style is given, one span covering them. -/
def appendText (t : RText) (seg : List Char) (sty : Option String) : RText :=
  if seg = [] then t
  else
    { plain := t.plain ++ seg
      spans := t.spans ++ match sty with
        | some s => [⟨t.plain.length, t.plain.length + seg.length, s⟩]
        | none => [] }

/-- `s.replace('`', '')`: drop every backtick character. -/
def stripBt (s : List Char) : List Char := s.filter (fun c => c ≠ btChar)

/-- Loop body of `NeonHighlighter._remove_backticks_preserve_style`
(`highlighting.py:119-140`): walk the span list in stored order, copying the
de-backticked gap before each span unstyled, the de-backticked span content
with the span's own style, and finally the de-backticked tail. -/
def removeBtGo (plain : List Char) (spans : List Span) (lastEnd : Nat)
    (acc : RText) : RText :=
  match spans with
  | [] =>
      if lastEnd < plain.length then
        appendText acc (stripBt (plain.drop lastEnd)) none
      else acc
  | sp :: rest =>
      let acc1 :=
        if lastEnd < sp.start then
          appendText acc (stripBt (slice plain lastEnd sp.start)) none
        else acc
      let acc2 := appendText acc1 (stripBt (slice plain sp.start sp.stop)) (some sp.style)
      removeBtGo plain rest sp.stop acc2

/-- `NeonHighlighter._remove_backticks_preserve_style` (`highlighting.py:119-140`). -/
def removeBackticksPreserveStyle (t : RText) : RText :=
  removeBtGo t.plain t.spans 0 ⟨[], []⟩

/-! ### The compiled recognition pattern (`NeonHighlighter._build_regex`)

The combined regex built at `highlighting.py:142-178` is a fixed alternation
(program name | backtick span | option token with optional metavar | version),
evaluated left-to-right at each position, leftmost match first, scanning
resuming at the end of each match (`re.finditer` semantics; every alternative
matches at least one character, so no zero-width handling is needed).  We
implement that specific automaton directly. -/

/-- A word character for `\b`, on the ASCII range (`[A-Za-z0-9_]`). -/
def isWordChar (c : Char) : Bool := c.isAlphanum || c = '_'

/-- Whether the character at index `i` is a word character (out of range
counts as non-word, as at the ends of the subject string). -/
def wordAt (s : List Char) (i : Nat) : Bool :=
  match charAt s i with
  | some c => isWordChar c
  | none => false

/-- `\b`: true when exactly one of the two neighbouring positions holds a
word character. -/
def wordBoundary (s : List Char) (i : Nat) : Bool :=
  xor (if i = 0 then false else wordAt s (i - 1)) (wordAt s i)

/-- Literal match of `lit` at index `i` (what `re.escape`d program names
compile to). -/
def litAt (s : List Char) (i : Nat) (lit : List Char) : Bool :=
  (s.drop i).take lit.length = lit

/-- ASCII alphanumeric, the `[A-Za-z0-9]` class of the option-token grammar. -/
def isAlnum (c : Char) : Bool := c.isAlphanum

/-- A character of the option-token tail class `[A-Za-z0-9-]`. -/
def isTokChar (c : Char) : Bool := isAlnum c || c = '-'

/-- `re.fullmatch(r"--?[A-Za-z0-9][A-Za-z0-9-]*", content)` as used at
`highlighting.py:91`. -/
def isOptToken (l : List Char) : Bool :=
  match l with
  | '-' :: '-' :: c :: rest => isAlnum c && rest.all isTokChar
  | '-' :: c :: rest => isAlnum c && rest.all isTokChar
  | _ => false

/-- The program-name part of the compiled pattern: the main token and, for a
two-token prog, the optional subcommand token.  `_build_regex` only produces
non-empty, whitespace-free tokens here (a falsy `prog` skips the part, and
`str.split()` never yields empty tokens), which the matcher below relies on. -/
structure ProgPat where
  main : List Char
  sub : Option (List Char)
deriving DecidableEq, Repr

/-- `str.split()`: split on whitespace runs, dropping empty tokens. -/
def pySplitWs (s : List Char) : List (List Char) :=
  (s.splitOnP Char.isWhitespace).filter (fun t => t ≠ [])

/-- The prog pattern built by `_build_regex` (`highlighting.py:150-163`):
nothing for a falsy prog; for a multi-token prog the first two tokens; for a
single-token prog the whole (escaped, hence literal) prog string. -/
def buildProgPat (prog : List Char) : Option ProgPat :=
  if prog = [] then none
  else
    let parts := pySplitWs prog
    if 2 ≤ parts.length then some ⟨parts.headD [], (parts.drop 1).headD []⟩
    else some ⟨prog, none⟩

/-- Which alternative of the compiled pattern matched, with the group spans;
the constructor also encodes `match.lastgroup` (`progCmd` for "command",
`argsTok` with a metavar for "metavar", etc.). -/
inductive MKind where
  | progOnly (a b : Nat)
  | progCmd (pa pb ca cb : Nat)
  | backtick (a b : Nat)
  | argsTok (a b : Nat) (mv : Option (Nat × Nat))
  | version (a b : Nat)
deriving DecidableEq, Repr

/-- One `re.finditer` match: the matched alternative plus the overall span. -/
structure RMatch where
  kind : MKind
  start : Nat
  stop : Nat
deriving DecidableEq, Repr

/-- Match the prog alternative at `i`:
`\bmain\b` or `\bmain\b(?:\s+\bsub\b)?` (`highlighting.py:153-161`).  The
whitespace run before `sub` is taken maximally; since `sub` never starts with
whitespace this agrees with the backtracking engine. -/
def tryProg (pp : ProgPat) (s : List Char) (i : Nat) : Option RMatch :=
  if pp.main = [] then none
  else if wordBoundary s i ∧ litAt s i pp.main ∧ wordBoundary s (i + pp.main.length) then
    let j := i + pp.main.length
    match pp.sub with
    | none => some ⟨.progOnly i j, i, j⟩
    | some sub =>
        let ws := (s.drop j).takeWhile Char.isWhitespace
        let k := j + ws.length
        if sub ≠ [] ∧ ws ≠ [] ∧ wordBoundary s k ∧ litAt s k sub ∧
            wordBoundary s (k + sub.length) then
          some ⟨.progCmd i j k (k + sub.length), i, k + sub.length⟩
        else some ⟨.progOnly i j, i, j⟩
  else none

/-- Match the backtick alternative at `i`: `` `([^`]+)` ``
(`highlighting.py:166`). -/
def tryBacktick (s : List Char) (i : Nat) : Option RMatch :=
  if charAt s i = some btChar then
    let content := (s.drop (i + 1)).takeWhile (fun c => c ≠ btChar)
    if content ≠ [] ∧ charAt s (i + 1 + content.length) = some btChar then
      some ⟨.backtick i (i + content.length + 2), i, i + content.length + 2⟩
    else none
  else none

/-- Match the option-token alternative at `i`:
`(--?[A-Za-z0-9][A-Za-z0-9-]*)(?:\s+(\S+))?` (`highlighting.py:170`). -/
def tryArgs (s : List Char) (i : Nat) : Option RMatch :=
  if charAt s i = some '-' then
    let afterDash :=
      if charAt s (i + 1) = some '-' ∧ (charAt s (i + 2)).any isAlnum then
        some (i + 3)
      else if (charAt s (i + 1)).any isAlnum then some (i + 2)
      else none
    match afterDash with
    | none => none
    | some h =>
        let e := h + ((s.drop h).takeWhile isTokChar).length
        let ws := (s.drop e).takeWhile Char.isWhitespace
        let mvRun := (s.drop (e + ws.length)).takeWhile (fun c => ¬ c.isWhitespace)
        if ws ≠ [] ∧ mvRun ≠ [] then
          some ⟨.argsTok i e (some (e + ws.length, e + ws.length + mvRun.length)),
            i, e + ws.length + mvRun.length⟩
        else some ⟨.argsTok i e none, i, e⟩
  else none

/-- The digit-and-dot tail of the version alternative, scanned from `d0`
(after the optional `v`): `\d+\.\d+\.\d+\b`, reporting the overall match as
starting at `i`. -/
def tryVersionFrom (s : List Char) (i d0 : Nat) : Option RMatch :=
  let r1 := (s.drop d0).takeWhile Char.isDigit
  if r1 = [] then none
  else
    let p1 := d0 + r1.length
    if charAt s p1 = some '.' then
      let r2 := (s.drop (p1 + 1)).takeWhile Char.isDigit
      if r2 = [] then none
      else
        let p2 := p1 + 1 + r2.length
        if charAt s p2 = some '.' then
          let r3 := (s.drop (p2 + 1)).takeWhile Char.isDigit
          if r3 = [] then none
          else
            let e := p2 + 1 + r3.length
            if wordBoundary s e then some ⟨.version i e, i, e⟩ else none
        else none
    else none

/-- Match the version alternative at `i`: `\bv?\d+\.\d+\.\d+\b`
(`highlighting.py:174`).  The optional `v` is taken greedily; when digits do
not follow it the `v`-less attempt fails too (a `v` is no digit), so no
backtracking arises. -/
def tryVersion (s : List Char) (i : Nat) : Option RMatch :=
  if wordBoundary s i then
    tryVersionFrom s i (if charAt s i = some 'v' then i + 1 else i)
  else none

/-- Try the alternation at position `i`, left to right in the order the parts
are assembled at `highlighting.py:144-178`: prog, backtick, option token,
version. -/
def tryMatchAt (pp : Option ProgPat) (s : List Char) (i : Nat) : Option RMatch :=
  (match pp with | some q => tryProg q s i | none => none) <|>
    tryBacktick s i <|> tryArgs s i <|> tryVersion s i

/-- `re.finditer` scan: try each position left to right, resume after each
match.  `fuel` only bounds the recursion; `s.length + 1` is always enough
because every match consumes at least one character. -/
def finditerGo (pp : Option ProgPat) (s : List Char) (i fuel : Nat) : List RMatch :=
  match fuel with
  | 0 => []
  | fuel + 1 =>
      if i < s.length then
        match tryMatchAt pp s i with
        | some m => m :: finditerGo pp s m.stop fuel
        | none => finditerGo pp s (i + 1) fuel
      else []

/-- All matches of the compiled pattern against `s`, in order. -/
def finditer (pp : Option ProgPat) (s : List Char) : List RMatch :=
  finditerGo pp s 0 (s.length + 1)

/-! ### The highlighter (`NeonHighlighter.highlight`, `highlighting.py:34-116`)

The highlighter is modelled in its ready state (the lazily built option index
and compiled pattern are parameters; when the parser holds no actions the
method returns without touching the text).  The option index maps each option
string to its action's metavar, the only attribute `highlight` reads
(`entry["action"].metavar`, truthiness-tested).  The custom-pattern loop runs
over the (by default empty) custom-pattern dict and is omitted: with no custom
patterns registered its body never executes.  The single Python loop both
styles the text and accumulates the `backtick_replacements` flag; since the
flag computation reads only the plain text (fixed during the loop), the two
accumulations are modelled as two folds over the same match list. -/

/-- The option index entry for an option string: `Some metavar?` when the
option string is registered (`content in self._options` /
`self._options.get(opt)`). -/
def optLookup (opts : List (List Char × Option (List Char))) (k : List Char) :
    Option (Option (List Char)) :=
  (opts.find? (fun p => p.1 = k)).map (fun p => p.2)

/-- Truthiness of an action's metavar attribute (`entry["action"].metavar`). -/
def metavarTruthy (m : Option (List Char)) : Bool := (m.getD []) ≠ []

/-- The styling effect of one match (the dispatch on `match.lastgroup`,
`highlighting.py:57-109`), acting on the span list only. -/
def processMatchText (opts : List (List Char × Option (List Char)))
    (plain : List Char) (t : RText) (m : RMatch) : RText :=
  match m.kind with
  | .progOnly a b => stylize t a b "argparse.prog"
  | .progCmd pa pb ca cb => stylize (stylize t pa pb "argparse.prog") ca cb "argparse.prog"
  | .version a b => stylize t a b "argparse.metavar"
  | .backtick a b =>
      let content := slice plain (a + 1) (b - 1)
      if (optLookup opts content).isSome then stylize t (a + 1) (b - 1) "argparse.args"
      else if isOptToken content then t
      else stylize t (a + 1) (b - 1) "argparse.syntax"
  | .argsTok a b mv =>
      let opt := slice plain a b
      match optLookup opts opt with
      | some entryMv =>
          let t1 := stylize t a b "argparse.args"
          match mv with
          | some mvs =>
              if metavarTruthy entryMv then stylize t1 mvs.1 mvs.2 "argparse.metavar"
              else t1
          | none => t1
      | none => t

/-- The `backtick_replacements` contribution of one match: the flag is set
exactly by the two backtick branches that style content
(`highlighting.py:90,97`). -/
def processMatchFlag (opts : List (List Char × Option (List Char)))
    (plain : List Char) (flag : Bool) (m : RMatch) : Bool :=
  match m.kind with
  | .backtick a b =>
      let content := slice plain (a + 1) (b - 1)
      if (optLookup opts content).isSome then true
      else if isOptToken content then flag
      else true
  | _ => flag

/-- Step 2 of `highlight`: style every match of the compiled pattern. -/
def highlightStep2Text (opts : List (List Char × Option (List Char)))
    (pp : Option ProgPat) (t : RText) : RText :=
  (finditer pp t.plain).foldl (processMatchText opts t.plain) t

/-- The `backtick_replacements` flag after the match loop of `highlight`. -/
def highlightFlag (opts : List (List Char × Option (List Char)))
    (pp : Option ProgPat) (plain : List Char) : Bool :=
  (finditer pp plain).foldl (processMatchFlag opts plain) false

/-- `NeonHighlighter.highlight` (`highlighting.py:34-116`) in the ready
state: style all matches, then, when backtick preservation is off and some
backtick span was styled, rebuild the text without backticks, keeping the
carried span styles (the Python code copies `new_text.plain` and
`new_text._spans` back into the argument). -/
def highlight (opts : List (List Char × Option (List Char)))
    (pp : Option ProgPat) (preserveBackticks : Bool) (t : RText) : RText :=
  let t2 := highlightStep2Text opts pp t
  if preserveBackticks = false ∧ highlightFlag opts pp t.plain = true then
    let nt := removeBackticksPreserveStyle t2
    { plain := nt.plain, spans := nt.spans }
  else t2

/-! ### Configuration and parser snapshot (`config.py`, argparse view)

`Config` is mirrored field-for-field for everything the formatter can read;
`theme`/`custom_patterns`/content fields are carried as plain data.  The
parser snapshot holds what the formatter reads from argparse: the flat
action list (`parser._actions`), the action groups (`parser._action_groups`,
each with its `_group_actions`), and the textual attributes.  Actions are
modelled by value; the the source's de-duplication of shared action objects
only matters for running maxima and set membership, where duplicates are
harmless (noted at each use). -/

structure NConfig where
  indent : Nat := 2
  sectionGap : Nat := 1
  maxWidth : Option Nat := none
  noWrapUsage : Bool := true
  argColumnWidth : Option Nat := none
  dynFormat : Bool := true
  preserveBackticks : Bool := false
  bulletChar : String := "•"
  bulletList : List String := ["•", "◦", "▪", "▫", "-", "*"]
  themeName : String := "default"
  customPatterns : List (String × String) := []
  header : Option String := none
  examples : Option String := none
  notes : Option String := none
  debug : Bool := false
deriving DecidableEq, Repr

/-- One argparse action as the formatter reads it.  `nargs` carries `"?"`,
`"*"`, `"+"` or is absent (integer arities behave like the default branch of
every dispatch and can be carried as their decimal rendering).  For a
subparsers action, `subCommands` holds `choices` as (name, description of the
sub-parser) pairs and `subTitle` its optional `title` attribute. -/
structure PAction where
  optionStrings : List String
  dest : String
  metavar : Option String := none
  helpText : Option String := none
  defaultVal : Option String := none
  choices : List String := []
  required : Bool := false
  nargs : Option String := none
  isSubParsers : Bool := false
  subCommands : List (String × Option String) := []
  subTitle : Option String := none
deriving DecidableEq, Repr

structure PGroup where
  title : Option String
  groupActions : List PAction
deriving DecidableEq, Repr

structure Parser where
  prog : String
  description : Option String := none
  epilog : Option String := none
  actions : List PAction := []
  actionGroups : List PGroup := []
deriving DecidableEq, Repr

/-! ### Small Python string helpers -/

/-- `str.upper()` on the ASCII range. -/
def pyUpper (s : String) : String := ⟨s.data.map Char.toUpper⟩

/-- `str.startswith(pat)`. -/
def strStartsWith (s pat : String) : Bool := s.data.take pat.data.length == pat.data

/-- `str.replace(pat, rep)` with explicit fuel: replace every
non-overlapping occurrence, leftmost first.  The Python empty-pattern
behaviour is never exercised (all patterns used are literal placeholders);
an empty pattern here leaves the string unchanged. -/
def replaceF (fuel : Nat) (pat rep s : List Char) : List Char :=
  match fuel, s with
  | 0, s => s
  | _ + 1, [] => []
  | fuel + 1, c :: rest =>
      if pat ≠ [] ∧ (c :: rest).take pat.length = pat then
        rep ++ replaceF fuel pat rep ((c :: rest).drop pat.length)
      else c :: replaceF fuel pat rep rest

/-- `str.replace(pat, rep)`. -/
def pyReplace (s pat rep : String) : String := ⟨replaceF s.data.length pat.data rep.data s.data⟩

/-- `str.split(sep)` (with a non-empty literal separator) with explicit
fuel. -/
def pySplitF (fuel : Nat) (sep : List Char) (s : List Char) : List (List Char) :=
  match fuel, s with
  | 0, s => [s]
  | _ + 1, [] => [[]]
  | fuel + 1, c :: rest =>
      if sep ≠ [] ∧ (c :: rest).take sep.length = sep then
        [] :: pySplitF fuel sep ((c :: rest).drop sep.length)
      else
        match pySplitF fuel sep rest with
        | [] => [[c]]
        | h :: t => (c :: h) :: t

/-- `str.split(sep)`. -/
def pySplitStr (s sep : String) : List String :=
  (pySplitF s.data.length sep.data s.data).map (fun l => ⟨l⟩)

/-- `str.lstrip()`. -/
def pyLstripS (s : String) : String := ⟨s.data.dropWhile Char.isWhitespace⟩

/-- `str.rstrip()`. -/
def pyRstripS (s : String) : String := ⟨(s.data.reverse.dropWhile Char.isWhitespace).reverse⟩

/-- `str.strip()`. -/
def pyStripS (s : String) : String := pyLstripS (pyRstripS s)

/-- Truthiness of `s.strip()`: the string holds a non-whitespace character. -/
def strTruthyContent (s : String) : Bool := s.data.any (fun c => !c.isWhitespace)

/-- Python substring test `pat in s`, on character lists. -/
def hasSubList (s pat : List Char) : Bool :=
  match s with
  | [] => pat == []
  | c :: rest => ((c :: rest).take pat.length == pat) || hasSubList rest pat

/-- Python substring test `pat in s`. -/
def hasSub (s pat : String) : Bool := hasSubList s.data pat.data

/-- The rich markup tag wrapper `[tag]content[/tag]` used throughout the
formatter's f-strings. -/
def wrapTag (tag content : String) : String :=
  "[" ++ tag ++ "]" ++ content ++ "[/" ++ tag ++ "]"

/-- Python's `", ".join(...)`. -/
def joinComma : List String → String
  | [] => ""
  | [o] => o
  | o :: rest => o ++ ", " ++ joinComma rest

/-- `strip_rich_tags` (`formatter.py:21-25`) with explicit fuel: delete
every non-overlapping, leftmost-first occurrence of `\[(\/?)[^\]]+\]` — that
is, every `[`, at least one non-`]` character, `]` run.  Each step consumes
at least one character, so any fuel of at least the list length computes the
whole result. -/
def stripTagsF (fuel : Nat) (s : List Char) : List Char :=
  match fuel, s with
  | 0, _ => []
  | _ + 1, [] => []
  | fuel + 1, c :: rest =>
      if c = '[' then
        let run := rest.takeWhile (fun d => d ≠ ']')
        if run ≠ [] ∧ charAt rest run.length = some ']' then
          stripTagsF fuel (rest.drop (run.length + 1))
        else c :: stripTagsF fuel rest
      else c :: stripTagsF fuel rest

/-- `strip_rich_tags` on character lists. -/
def stripTagsGo (s : List Char) : List Char := stripTagsF s.length s

/-- `strip_rich_tags` on strings. -/
def stripTags (s : String) : String := ⟨stripTagsGo s.data⟩

/-- Plain text of a rich markup string as the generated usage/invocation
strings use it, with explicit fuel: `\[` is an escaped literal `[`, a
`[...]` tag renders as nothing, everything else as itself. -/
def markupPlainF (fuel : Nat) (s : List Char) : List Char :=
  match fuel, s with
  | 0, _ => []
  | _ + 1, [] => []
  | fuel + 1, '\\' :: '[' :: rest => '[' :: markupPlainF fuel rest
  | fuel + 1, c :: rest =>
      if c = '[' then
        let run := rest.takeWhile (fun d => d ≠ ']')
        if charAt rest run.length = some ']' then markupPlainF fuel (rest.drop (run.length + 1))
        else c :: markupPlainF fuel rest
      else c :: markupPlainF fuel rest

/-- Plain text of a generated markup string. -/
def markupPlain (s : String) : String := ⟨markupPlainF s.data.length s.data⟩

/-! ### `RichFormatter._format_action_invocation` and the column width -/

/-- `RichFormatter._format_action_invocation` (`formatter.py:393-418`). -/
def formatActionInvocation (a : PAction) : String :=
  if a.optionStrings = [] then
    if optTruthy a.metavar then wrapTag "argparse.metavar" (a.metavar.getD "")
    else if a.dest ≠ SUPPRESS then wrapTag "argparse.metavar" (pyUpper a.dest)
    else ""
  else
    let optionStr :=
      joinComma (a.optionStrings.map (fun o => wrapTag "argparse.args" o))
    let optionStr :=
      if a.optionStrings.length = 1 ∧ strStartsWith (a.optionStrings.headD "") "--" then
        "    " ++ optionStr
      else optionStr
    if optTruthy a.metavar then
      optionStr ++ " " ++ wrapTag "argparse.metavar" (a.metavar.getD "")
    else optionStr

/-- `RichFormatter._calculate_max_arg_column_width` (`formatter.py:507-551`).
The Python code gathers the group actions into a `set`; duplicates and
iteration order are irrelevant under a running maximum, so the flattened
list is folded directly. -/
def calcMaxArgColumnWidth (p : Parser) : Nat :=
  let subMax := p.actions.foldl (fun m a =>
    if a.isSubParsers then
      a.subCommands.foldl (fun m2 nd => max m2 nd.1.length) m
    else m) 0
  let groupActs := p.actionGroups.foldl (fun acc g =>
    acc ++ g.groupActions.filter
      (fun a => a.helpText ≠ some SUPPRESS ∧ ¬ a.isSubParsers)) []
  let maxw := groupActs.foldl (fun m a =>
    let inv := formatActionInvocation a
    if inv ≠ "" then max m (stripTags inv).length else m) subMax
  max (maxw + 3) 10

/-! ### `RichFormatter._format_action_help` (substitution part) -/

/-- The default-value handling of `_format_action_help`
(`formatter.py:426-435`): append the rendered default parenthetically when
the `%(default)s` placeholder is absent, substitute it otherwise. -/
def helpAfterDefault (a : PAction) : String :=
  let ht := a.helpText.getD ""
  if a.defaultVal ≠ none ∧ a.defaultVal ≠ some SUPPRESS then
    let d := a.defaultVal.getD ""
    if hasSub ht "%(default)s" = false then
      ht ++ " [argparse.default](default: " ++ d ++ ")[/argparse.default]"
    else pyReplace ht "%(default)s" ("[argparse.default]" ++ d ++ "[/argparse.default]")
  else ht

/-- `RichFormatter._format_action_help` up to and including the choices
handling (`formatter.py:420-445`): the markup help string before the final
escape-or-highlight step, which belongs to the rendering collaborator. -/
def formatActionHelpCore (a : PAction) : String :=
  if a.helpText.getD "" = "" then ""
  else
    let ht := helpAfterDefault a
    if a.choices ≠ [] then
      let cs := joinComma a.choices
      if hasSub ht "%(choices)s" = false then
        ht ++ " [argparse.metavar](choices: " ++ cs ++ ")[/argparse.metavar]"
      else pyReplace ht "%(choices)s" ("[argparse.metavar]" ++ cs ++ "[/argparse.metavar]")
    else ht

/-! ### `RichFormatter._build_usage_text` (`formatter.py:131-233`) -/

/-- `self.config.max_width or 80`. -/
def pyMaxWidth (cfg : NConfig) : Nat :=
  match cfg.maxWidth with
  | some w => if w ≠ 0 then w else 80
  | none => 80

/-- The fixed leading parts `Usage:` and the (truthy-or-`"program"`) prog. -/
def usagePartsBase (p : Parser) : List String :=
  ["[argparse.groups]Usage:[/argparse.groups]",
   "[argparse.prog]" ++ (if p.prog ≠ "" then p.prog else "program") ++ "[/argparse.prog]"]

/-- Usage fragment for one optional argument (`formatter.py:152-167`):
angle brackets only for required options in debug mode, escaped square
brackets otherwise. -/
def usageOptionalPart (debug : Bool) (a : PAction) : String :=
  let opt := a.optionStrings.headD ""
  if optTruthy a.metavar then
    if a.required ∧ debug then
      "<[argparse.args]" ++ opt ++ "[/argparse.args] [argparse.metavar]" ++
        a.metavar.getD "" ++ "[/argparse.metavar]>"
    else
      "\\[[argparse.args]" ++ opt ++ "[/argparse.args] [argparse.metavar]" ++
        a.metavar.getD "" ++ "[/argparse.metavar]]"
  else
    if a.required ∧ debug then "<[argparse.args]" ++ opt ++ "[/argparse.args]>"
    else "\\[[argparse.args]" ++ opt ++ "[/argparse.args]]"

/-- Usage fragment for one positional argument (`formatter.py:168-188`):
skipped for `help` and suppressed destinations, bracket/ellipsis notation by
arity. -/
def usagePositionalPart (a : PAction) : Option String :=
  if a.dest = "help" then none
  else
    let mvOpt : Option String :=
      if optTruthy a.metavar then some (a.metavar.getD "")
      else if a.dest ≠ SUPPRESS then some (pyUpper a.dest)
      else none
    match mvOpt with
    | none => none
    | some mv =>
        some (match a.nargs with
          | some "?" => "\\[[argparse.metavar]" ++ mv ++ "[/argparse.metavar]]"
          | some "*" =>
              "\\[[argparse.metavar]" ++ mv ++ "[/argparse.metavar] [argparse.text]...[/argparse.text]]"
          | some "+" =>
              "[argparse.metavar]" ++ mv ++ "[/argparse.metavar] \\[[argparse.metavar]" ++
                mv ++ "[/argparse.metavar] [argparse.text]...[/argparse.text]]"
          | _ => "[argparse.metavar]" ++ mv ++ "[/argparse.metavar]")

/-- The `command ...` token appended when any subparsers action exists
(`formatter.py:144-147`). -/
def usageSubcommands (p : Parser) : List String :=
  if p.actions.any (fun a => a.isSubParsers) then
    ["[argparse.args]command[/argparse.args] [argparse.text]...[/argparse.text]"]
  else []

/-- `RichFormatter._insert_smart_breaks` (`formatter.py:200-233`). -/
def insertSmartBreaks (maxW : Nat)
    (parts optionalArgs positionalArgs subcommands : List String) : String :=
  let usagePreLen := (stripTags (String.intercalate " " parts)).length
  let contIndent := String.mk (List.replicate usagePreLen ' ')
  let folded := optionalArgs.foldl (fun (st : List String × Nat) part =>
    let pl := (stripTags part).length
    if st.2 + pl + 1 > maxW then
      (st.1 ++ ["\n" ++ contIndent, part], contIndent.length + pl + 1)
    else (st.1 ++ [part], st.2 + pl + 1)) (parts, usagePreLen + 1)
  let withPos :=
    if positionalArgs ≠ [] then folded.1 ++ ["\n" ++ contIndent] ++ positionalArgs
    else folded.1
  let withSub :=
    if subcommands ≠ [] then withPos ++ ["\n" ++ contIndent] ++ subcommands
    else withPos
  String.intercalate " " withSub

/-- `RichFormatter._build_usage_text` (`formatter.py:131-198`). -/
def buildUsageText (cfg : NConfig) (p : Parser) : String :=
  let parts := usagePartsBase p
  let subcommands := usageSubcommands p
  let optionalArgs :=
    (p.actions.filter (fun a => ¬ a.isSubParsers ∧ a.optionStrings ≠ [])).map
      (usageOptionalPart cfg.debug)
  let positionalArgs :=
    (p.actions.filter (fun a => ¬ a.isSubParsers ∧ a.optionStrings = [])).filterMap
      usagePositionalPart
  let line := String.intercalate " " (parts ++ optionalArgs ++ positionalArgs ++ subcommands)
  if (stripTags line).length > pyMaxWidth cfg then
    insertSmartBreaks (pyMaxWidth cfg) parts optionalArgs positionalArgs subcommands
  else line

/-! ### Section joining (`RichFormatter._join_sections`, `formatter.py:495-505`) -/

/-- `RichFormatter._join_sections`. -/
def joinSections (sectionGap : Nat) (sections : List String) : String :=
  if sections = [] then ""
  else
    let cleaned := (sections.filter strTruthyContent).map pyRstripS
    let gap := String.mk (List.replicate (sectionGap + 1) '\n')
    String.intercalate gap cleaned

/-! ### Column-width caching state and the section tables -/

/-- The formatter's per-instance cache `_calculated_arg_column_width`
(`formatter.py:44-45`); never reset between `format_help` calls. -/
structure FmtState where
  calculatedArgColumnWidth : Option Nat
deriving DecidableEq, Repr

/-- Python's `a or b` on optional widths: `a` wins when truthy (set and
non-zero). -/
def pyOrNat (a b : Option Nat) : Option Nat :=
  match a with
  | some n => if n ≠ 0 then some n else b
  | none => b

/-- The width logic of `RichFormatter._create_section_table`
(`formatter.py:378-383`): lazily fill the instance cache when neither the
configured nor the cached width is set, then take the configured width or
the cached one. -/
def createSectionTableWidth (cfg : NConfig) (p : Parser) (st : FmtState) :
    Option Nat × FmtState :=
  let st1 :=
    if cfg.argColumnWidth = none ∧ st.calculatedArgColumnWidth = none then
      { calculatedArgColumnWidth := some (calcMaxArgColumnWidth p) }
    else st
  (pyOrNat cfg.argColumnWidth st1.calculatedArgColumnWidth, st1)

/-! ### Argument-group sections (`RichFormatter._format_argument_groups`) -/

/-- One rendered help-table section: the printed title, the width given to
the second column, and the (invocation, help) rows. -/
structure HelpSection where
  title : String
  argColWidth : Option Nat
  rows : List (String × String)
deriving DecidableEq, Repr

/-- `f"{group.title}:"` — Python renders a `None` title as `"None"`. -/
def groupTitleDisplay (t : Option String) : String :=
  (match t with | some s => s | none => "None") ++ ":"

/-- The per-group step of the `_format_argument_groups` loop
(`formatter.py:271-304`), over the accumulated (sections, processed titles,
width cache) state: skip the default argparse group titles, drop suppressed
actions, skip empty groups, groups holding a subparsers action, and
duplicate titles; each rendered group consumes one section table. -/
def fmtGroupStep (cfg : NConfig) (p : Parser)
    (acc : List HelpSection × List (Option String) × FmtState) (g : PGroup) :
    List HelpSection × List (Option String) × FmtState :=
  if g.title = some "positional arguments" ∨ g.title = some "optional arguments" then acc
  else
    let acts := g.groupActions.filter (fun a => a.helpText ≠ some SUPPRESS)
    if acts = [] then acc
    else if acts.any (fun a => a.isSubParsers) then acc
    else if g.title ∈ acc.2.1 then acc
    else
      let ws := createSectionTableWidth cfg p acc.2.2
      let rows := acts.map (fun a => (formatActionInvocation a, formatActionHelpCore a))
      (acc.1 ++ [⟨groupTitleDisplay g.title, ws.1, rows⟩], g.title :: acc.2.1, ws.2)

/-- `RichFormatter._format_argument_groups` (`formatter.py:266-306`).  The
function is total — the source has no raising path — so a skipped group is
silently absent from the result. -/
def formatArgumentGroups (cfg : NConfig) (p : Parser) (st : FmtState) :
    List HelpSection × FmtState :=
  let out := p.actionGroups.foldl (fmtGroupStep cfg p) ([], [], st)
  (out.1, out.2.2)

/-! ### Custom sections and the whole-document model -/

/-- `RichFormatter._is_bullet_line` (`formatter.py:474-480`). -/
def isBulletLine (cfg : NConfig) (line : String) : Bool :=
  let stripped := pyLstripS line
  if stripped = "" then false
  else cfg.bulletList.any (fun ch => strStartsWith stripped (ch ++ " "))

/-- `RichFormatter._extract_bullet` (`formatter.py:482-493`). -/
def extractBullet (cfg : NConfig) (line : String) : String × String :=
  let stripped := pyLstripS line
  match cfg.bulletList.find? (fun ch => strStartsWith stripped (ch ++ " ")) with
  | some ch => ((if cfg.bulletChar ≠ "" then cfg.bulletChar else ch), stripped.drop 2)
  | none => ((if cfg.bulletChar ≠ "" then cfg.bulletChar else "•"), stripped)

/-- `RichFormatter._format_text_content` (`formatter.py:458-472`) at the
structural level: blank content renders empty; otherwise the content string
is carried through (the escape-or-highlight markup round trip is the
rendering collaborator's). -/
def formatTextContentModel (cfg : NConfig) (text : String) : String :=
  if strTruthyContent text = false then "" else text

/-- The table shape chosen for one custom section. -/
inductive CustomRows where
  | bulletTable (rows : List (String × String))
  | plainTable (rows : List String)
deriving DecidableEq, Repr

/-- One custom section (`RichFormatter._format_custom_sections`,
`formatter.py:308-361`): `title:` header, then a bullet table when any line
is a bullet line, a plain table otherwise. -/
def customSectionModel (cfg : NConfig) (title content : String) : String × CustomRows :=
  let lines := pySplitStr (pyStripS content) "\n"
  if lines.any (isBulletLine cfg) then
    (title ++ ":", .bulletTable (lines.map (fun line =>
      if strTruthyContent line then
        if isBulletLine cfg line then
          let bc := extractBullet cfg line
          (bc.1, formatTextContentModel cfg bc.2)
        else ("", formatTextContentModel cfg (pyStripS line))
      else ("", ""))))
  else
    (title ++ ":", .plainTable (lines.map (fun line => formatTextContentModel cfg line)))

/-- The subcommand section (`RichFormatter._format_subcommands`,
`formatter.py:244-264`). -/
def formatSubcommandsModel (cfg : NConfig) (p : Parser) (st : FmtState) :
    Option HelpSection × FmtState :=
  match p.actions.find? (fun a => a.isSubParsers) with
  | none => (none, st)
  | some spa =>
      if spa.subCommands = [] then (none, st)
      else
        let ws := createSectionTableWidth cfg p st
        let title := (if optTruthy spa.subTitle then spa.subTitle.getD "" else "Commands") ++ ":"
        let rows := spa.subCommands.map (fun nd =>
          ("[argparse.args]" ++ nd.1 ++ "[/argparse.args]",
            match nd.2 with
            | some d => if d ≠ "" then "[argparse.text]" ++ d ++ "[/argparse.text]" else ""
            | none => ""))
        (some ⟨title, ws.1, rows⟩, ws.2)

/-- The assembled help document at the structural level. -/
structure HelpDoc where
  header : Option String
  usage : String
  description : Option String
  subcommandsSection : Option HelpSection
  groupSections : List HelpSection
  customSections : List (String × CustomRows)
  epilog : Option String
deriving DecidableEq, Repr

/-- `RichFormatter.format_help` (`formatter.py:75-110`) as a structural
document: every config-consulting rendering site of the source is threaded
through (usage building against the maximum width, section tables against
the indent/width cache, bullet detection against the bullet configuration);
the final string join is `joinSections`. -/
def formatHelpModel (cfg : NConfig) (p : Parser) (header : Option String)
    (customSecs : List (String × String)) (st : FmtState) : HelpDoc × FmtState :=
  let hdr := if optTruthy header then header else none
  let usage := buildUsageText cfg p
  let desc := match p.description with
    | some d => if d ≠ "" then some d else none
    | none => none
  let sub := formatSubcommandsModel cfg p st
  let groups := formatArgumentGroups cfg p sub.2
  let customs := customSecs.map (fun tc => customSectionModel cfg tc.1 tc.2)
  let epi := match p.epilog with
    | some e => if e ≠ "" then some e else none
    | none => none
  ({ header := hdr, usage := usage, description := desc,
     subcommandsSection := sub.1, groupSections := groups.1,
     customSections := customs, epilog := epi }, groups.2)

/-! ### Definitions following the claims' words

These mirror what the claims state, for comparison against the source
translations above. -/

/-- The group-collected visible (non-suppressed, non-subparser) actions the
width scan ranges over. -/
def widthScanActions (p : Parser) : List PAction :=
  p.actionGroups.foldl (fun acc g =>
    acc ++ g.groupActions.filter
      (fun a => a.helpText ≠ some SUPPRESS ∧ ¬ a.isSubParsers)) []

/-- The maximum subcommand-name length over all subparsers actions. -/
def subNameLengthsMax (p : Parser) : Nat :=
  p.actions.foldl (fun m a =>
    if a.isSubParsers then
      a.subCommands.foldl (fun m2 nd => max m2 nd.1.length) m
    else m) 0

/-- Modelled from the words of claim C2: the rendered invocation length as
the claim's parenthetical defines it — option strings joined by `", "` plus
the metavar if present, or the uppercased destination name for a
positional. -/
def claimInvocationLen (a : PAction) : Nat :=
  if a.optionStrings = [] then (pyUpper a.dest).length
  else
    (joinComma a.optionStrings).length +
      (if optTruthy a.metavar then 1 + (a.metavar.getD "").length else 0)

/-- The column width claim C2 states: `max(L + 3, 10)` over the claimed
invocation lengths and subcommand names. -/
def claimColumnWidth (p : Parser) : Nat :=
  let L := (widthScanActions p).foldl (fun m a => max m (claimInvocationLen a))
    (subNameLengthsMax p)
  max (L + 3) 10

/-- The invocation length the code actually renders, stated over the plain
action fields: as claim C2, but with the extra four-space pad given to an
action with exactly one option string starting with `--`, the metavar also
counted for positionals, and a suppressed-destination bare positional
contributing nothing. -/
def paddedInvocationLen (a : PAction) : Nat :=
  if a.optionStrings = [] then
    if optTruthy a.metavar then (a.metavar.getD "").length
    else if a.dest ≠ SUPPRESS then (pyUpper a.dest).length
    else 0
  else
    (joinComma a.optionStrings).length +
      (if a.optionStrings.length = 1 ∧ strStartsWith (a.optionStrings.headD "") "--" then 4
       else 0) +
      (if optTruthy a.metavar then 1 + (a.metavar.getD "").length else 0)

/-- The amended column-width formula. -/
def amendedColumnWidth (p : Parser) : Nat :=
  let L := (widthScanActions p).foldl (fun m a => max m (paddedInvocationLen a))
    (subNameLengthsMax p)
  max (L + 3) 10

/-- Modelled from the words of claim C5: drop empty/whitespace-only sections
and concatenate the rest, unmodified, with `sectionGap + 1` blank lines —
that is, `sectionGap + 2` newline characters — between consecutive
sections. -/
def claimJoinSections (sectionGap : Nat) (sections : List String) : String :=
  String.intercalate ⟨List.replicate (sectionGap + 2) '\n'⟩
    (sections.filter strTruthyContent)

/-- The join the code performs, stated independently: drop whitespace-only
sections, right-strip each survivor, and join with `sectionGap + 1` newline
characters (`sectionGap` blank lines). -/
def amendedJoinSections (sectionGap : Nat) (sections : List String) : String :=
  String.intercalate ⟨List.replicate (sectionGap + 1) '\n'⟩
    ((sections.filter strTruthyContent).map pyRstripS)

/-- Width-scan cleanliness of one action: none of the fields entering the
rendered invocation contains `[`, so markup stripping removes exactly the
inserted style tags. -/
def cleanAction (a : PAction) : Bool :=
  a.optionStrings.all (fun o => o.data.all (fun c => c ≠ '[')) &&
    (a.metavar.getD "").data.all (fun c => c ≠ '[') &&
    (pyUpper a.dest).data.all (fun c => c ≠ '[')

/-- Width-scan cleanliness of a parser. -/
def cleanParser (p : Parser) : Bool := (widthScanActions p).all cleanAction

/-! ### Proof-support notions for the highlighting theorems -/

/-- The content between the backticks of a backtick match spanning
`[a, b)`. -/
def btContent (plain : List Char) (a b : Nat) : List Char := slice plain (a + 1) (b - 1)

/-- Well-ordering of a span list above a lower bound: starts do not precede
`lo`, each span sits within the text, and consecutive spans are disjoint in
ascending order. -/
def SpansWF (plain : List Char) : List Span → Nat → Prop
  | [], _ => True
  | sp :: rest, lo =>
      lo ≤ sp.start ∧ sp.start ≤ sp.stop ∧ sp.stop ≤ plain.length ∧
        SpansWF plain rest sp.stop

/-- Where a span lands after backtick stripping: dropped when its content
was entirely backticks, otherwise carrying its style over the de-backticked
content at the offset shifted by the backticks removed before it. -/
def shiftSpan (plain : List Char) (sp : Span) : Option Span :=
  let c := stripBt (slice plain sp.start sp.stop)
  if c = [] then none
  else some ⟨(stripBt (plain.take sp.start)).length,
    (stripBt (plain.take sp.start)).length + c.length, sp.style⟩

/-- Generalisation of `shiftSpan` to an intermediate state of the
reconstruction loop: the prefix already emitted has length `base` and the
plain text has been consumed up to `lastEnd`. -/
def shiftFrom (plain : List Char) (lastEnd base : Nat) (sp : Span) : Option Span :=
  let c := stripBt (slice plain sp.start sp.stop)
  if c = [] then none
  else some ⟨base + (stripBt (slice plain lastEnd sp.start)).length,
    base + (stripBt (slice plain lastEnd sp.start)).length + c.length, sp.style⟩

/-- Internal consistency of a match produced by the scanner: the group
offsets are ordered, sized and placed as the corresponding alternative
guarantees. -/
def MatchWF (s : List Char) (m : RMatch) : Prop :=
  match m.kind with
  | .progOnly a b => m.start = a ∧ m.stop = b ∧ a < b ∧ b ≤ s.length
  | .progCmd pa pb ca cb =>
      m.start = pa ∧ m.stop = cb ∧ pa < pb ∧ pb ≤ ca ∧ ca < cb ∧ cb ≤ s.length
  | .backtick a b =>
      m.start = a ∧ m.stop = b ∧ a + 2 < b ∧ b ≤ s.length ∧
        charAt s a = some btChar ∧ btContent s a b ≠ [] ∧ btChar ∉ btContent s a b
  | .argsTok a b mv =>
      m.start = a ∧ a < b ∧
        (match mv with
         | none => m.stop = b ∧ b ≤ s.length
         | some q => m.stop = q.2 ∧ b ≤ q.1 ∧ q.1 < q.2 ∧ q.2 ≤ s.length)
  | .version a b => m.start = a ∧ m.stop = b ∧ a < b ∧ b ≤ s.length

/-- The spans one match appends (the styling effect of `processMatchText`
run on an empty span list over the same plain text). -/
def matchSpans (opts : List (List Char × Option (List Char)))
    (plain : List Char) (m : RMatch) : List Span :=
  (processMatchText opts plain ⟨plain, []⟩ m).spans

/-! ### Concrete fixtures used by the claim theorems -/

def actVerbose : PAction :=
  { optionStrings := ["--verbose"], dest := "verbose", helpText := some "Verbose" }

def parserVerbose : Parser :=
  { prog := "mytool", actions := [actVerbose],
    actionGroups := [⟨some "Options", [actVerbose]⟩] }

def actShortA : PAction :=
  { optionStrings := ["-a"], dest := "a", helpText := some "A flag" }

def parserShortA : Parser :=
  { prog := "mytool", actions := [actShortA],
    actionGroups := [⟨some "Options", [actShortA]⟩] }

def actTypeChoices : PAction :=
  { optionStrings := ["--type"], dest := "type",
    helpText := some "Pick one of %(choices)s", choices := ["A", "B"],
    required := true }

def actFilePos : PAction := { optionStrings := [], dest := "file", nargs := some "?" }

def parserMytool : Parser :=
  { prog := "mytool", actions := [actTypeChoices, actFilePos], actionGroups := [] }

def parserDefaultGroup : Parser :=
  { prog := "mytool", actions := [actVerbose],
    actionGroups := [⟨some "optional arguments", [actVerbose]⟩] }

def ppMytool : Option ProgPat := some ⟨"mytool".data, none⟩

def optsFlag : List (List Char × Option (List Char)) := [("--flag".data, none)]

def optsXFlag : List (List Char × Option (List Char)) :=
  [("--x".data, some "V".data), ("--flag".data, none)]

def textBtFlag : RText := ⟨"see `--flag` now".data, []⟩

def textSwallow : RText := ⟨"--x `--flag`".data, []⟩

def textNope : RText := ⟨"--x `--nope`".data, []⟩

def textFlagOnly : RText := ⟨"`--flag`".data, []⟩

def textNopeOnly : RText := ⟨"`--nope`".data, []⟩

/-- A pre-styled text whose stored span list ends up out of ascending order
after styling: the markup-injected span at 9-11 is stored before the
backtick-match span at 1-7. -/
def textStyledDup : RText := ⟨"`--flag` ok".data, [⟨9, 11, "argparse.default"⟩]⟩

/-- A pre-styled text whose stored span list stays in ascending order after
styling: the pre-existing span at 0-3 precedes the backtick-match span. -/
def textStyledPre : RText := ⟨"see `--flag` now".data, [⟨0, 3, "argparse.groups"⟩]⟩

/-! ## Helper lemmas -/

theorem strData (s t : String) : (s ++ t).data = s.data ++ t.data := rfl

/-- Appending `":"` to a string is injective. -/
theorem colon_cancel (s u : String) (h : s ++ ":" = u ++ ":") : s = u := by
  have hd : s.data ++ [':'] = u.data ++ [':'] := by
    have h1 : (s ++ ":").data = (u ++ ":").data := by rw [h]
    simpa [strData] using h1
  have h2 : s.data = u.data := by
    have := congrArg List.dropLast hd
    simpa [List.dropLast_concat] using this
  cases s; cases u; exact congrArg String.mk h2

/-- A non-default group title renders to a non-default section title. -/
theorem groupTitleDisplay_not_default (t : Option String)
    (h1 : t ≠ some "positional arguments") (h2 : t ≠ some "optional arguments") :
    groupTitleDisplay t ≠ "positional arguments:" ∧
      groupTitleDisplay t ≠ "optional arguments:" := by
  cases t with
  | none => exact ⟨by decide, by decide⟩
  | some s =>
      refine ⟨fun hc => h1 ?_, fun hc => h2 ?_⟩
      · have : s = "positional arguments" := colon_cancel _ _ hc
        rw [this]
      · have : s = "optional arguments" := colon_cancel _ _ hc
        rw [this]

/-- The group-rendering step never adds a section with a default title. -/
theorem fmtGroupStep_titles (cfg : NConfig) (p : Parser)
    (acc : List HelpSection × List (Option String) × FmtState) (g : PGroup)
    (hacc : ∀ sec ∈ acc.1,
      sec.title ≠ "positional arguments:" ∧ sec.title ≠ "optional arguments:") :
    ∀ sec ∈ (fmtGroupStep cfg p acc g).1,
      sec.title ≠ "positional arguments:" ∧ sec.title ≠ "optional arguments:" := by
  intro sec hsec
  unfold fmtGroupStep at hsec
  by_cases hdef : g.title = some "positional arguments" ∨ g.title = some "optional arguments"
  · rw [if_pos hdef] at hsec
    exact hacc sec hsec
  · rw [if_neg hdef] at hsec
    simp only at hsec
    split at hsec
    · exact hacc sec hsec
    · split at hsec
      · exact hacc sec hsec
      · split at hsec
        · exact hacc sec hsec
        · rcases List.mem_append.mp hsec with hold | hnew
          · exact hacc sec hold
          · have hsec2 : sec = ⟨groupTitleDisplay g.title, _, _⟩ := List.mem_singleton.mp hnew
            push_neg at hdef
            subst hsec2
            exact groupTitleDisplay_not_default g.title hdef.1 hdef.2

theorem stripTagsF_nil (fuel : Nat) : stripTagsF fuel [] = [] := by
  cases fuel <;> rfl

/-- Any fuel of at least the list length computes `stripTagsGo`. -/
theorem stripTagsF_eq_go (fuel : Nat) :
    ∀ s : List Char, s.length ≤ fuel → stripTagsF fuel s = stripTagsGo s := by
  induction fuel using Nat.strong_induction_on with
  | _ fuel ih =>
    intro s hs
    cases s with
    | nil => rw [stripTagsF_nil, stripTagsGo, stripTagsF_nil]
    | cons c rest =>
      cases fuel with
      | zero => simp at hs
      | succ f =>
        have hrest : rest.length ≤ f := by simpa using hs
        show stripTagsF (f + 1) (c :: rest) = stripTagsF (rest.length + 1) (c :: rest)
        simp only [stripTagsF]
        by_cases hc : c = '['
        · simp only [if_pos hc]
          split
          · have hlen : (rest.drop ((rest.takeWhile (fun d => d ≠ ']')).length + 1)).length ≤
                rest.length := by
              rw [List.length_drop]; omega
            rw [ih f (by omega) _ (le_trans hlen hrest),
              ih rest.length (by omega) _ hlen]
          · rw [ih f (by omega) rest hrest, ih rest.length (by omega) rest le_rfl]
        · simp only [if_neg hc]
          rw [ih f (by omega) rest hrest, ih rest.length (by omega) rest le_rfl]

/-- One step of `stripTagsGo` past a non-`[` character. -/
theorem stripTagsGo_cons (c : Char) (rest : List Char) (h : c ≠ '[') :
    stripTagsGo (c :: rest) = c :: stripTagsGo rest := by
  show stripTagsF (rest.length + 1) (c :: rest) = _
  simp only [stripTagsF, if_neg h]
  rfl

/-- `stripTagsGo` emits a `[`-free segment unchanged. -/
theorem stripTagsGo_clean (pre : List Char) (hpre : ∀ c ∈ pre, c ≠ '[') :
    ∀ rest : List Char, stripTagsGo (pre ++ rest) = pre ++ stripTagsGo rest := by
  induction pre with
  | nil => intro rest; simp
  | cons c cs ih =>
      intro rest
      rw [List.cons_append, stripTagsGo_cons c _ (hpre c (by simp)),
        ih (fun d hd => hpre d (by simp [hd])) rest, List.cons_append]

/-- `takeWhile` over a list whose first stretch satisfies the predicate and
whose next element refutes it returns exactly that stretch. -/
theorem takeWhile_append_stop {α : Type} (p : α → Bool) (xs : List α) (y : α)
    (ys : List α) (hxs : ∀ x ∈ xs, p x = true) (hy : p y = false) :
    (xs ++ y :: ys).takeWhile p = xs := by
  induction xs with
  | nil => simp [List.takeWhile_cons, hy]
  | cons a as ih =>
      simp only [List.cons_append, List.takeWhile_cons, hxs a (by simp), if_true]
      rw [ih (fun x hx => hxs x (by simp [hx]))]

/-- `stripTagsGo` deletes one whole `[tag]` occurrence. -/
theorem stripTagsGo_tag (tag rest : List Char) (hne : tag ≠ [])
    (hcl : ∀ c ∈ tag, c ≠ ']') :
    stripTagsGo ('[' :: (tag ++ ']' :: rest)) = stripTagsGo rest := by
  have hrun : (tag ++ ']' :: rest).takeWhile (fun d => d ≠ ']') = tag := by
    refine takeWhile_append_stop _ tag ']' rest (fun x hx => ?_) (by simp)
    simp [hcl x hx]
  have hat : charAt (tag ++ ']' :: rest) tag.length = some ']' := by
    unfold charAt
    rw [List.drop_left]
    rfl
  have hdrop : (tag ++ ']' :: rest).drop (tag.length + 1) = rest := by
    rw [← List.drop_drop, List.drop_left]
    rfl
  show stripTagsF ((tag ++ ']' :: rest).length + 1) ('[' :: (tag ++ ']' :: rest)) =
    stripTagsGo rest
  simp only [stripTagsF, hrun, hat, hdrop]
  simp only [if_true, and_true, ne_eq, hne, not_false_eq_true, ite_true]
  exact stripTagsF_eq_go _ rest (by simp [List.length_append]; omega)

/-- `stripTagsGo` reduces a whole `[tag]content[/tag]` wrapper to its
content when the content is `[`-free. -/
theorem stripTagsGo_wrap (tg o : String) (rest : List Char)
    (htgne : tg.data ≠ []) (htg : ∀ c ∈ tg.data, c ≠ ']')
    (ho : ∀ c ∈ o.data, c ≠ '[') :
    stripTagsGo ((wrapTag tg o).data ++ rest) = o.data ++ stripTagsGo rest := by
  have hshape : (wrapTag tg o).data ++ rest =
      '[' :: (tg.data ++ ']' :: (o.data ++ '[' :: (('/' :: tg.data) ++ ']' :: rest))) := by
    simp [wrapTag, strData, List.append_assoc]
  rw [hshape, stripTagsGo_tag tg.data _ htgne htg,
    stripTagsGo_clean o.data ho,
    stripTagsGo_tag ('/' :: tg.data) rest (by simp)
      (by
        intro c hcm
        rcases List.mem_cons.mp hcm with h | h
        · subst h; decide
        · exact htg c h)]

theorem stripTagsGo_nil : stripTagsGo [] = [] := rfl

/-- `stripTagsGo` on a `[tag]content[/tag]` wrapper alone. -/
theorem stripTagsGo_wrap_nil (tg o : String)
    (htgne : tg.data ≠ []) (htg : ∀ c ∈ tg.data, c ≠ ']')
    (ho : ∀ c ∈ o.data, c ≠ '[') :
    stripTagsGo (wrapTag tg o).data = o.data := by
  have h := stripTagsGo_wrap tg o [] htgne htg ho
  rw [List.append_nil, stripTagsGo_nil, List.append_nil] at h
  exact h

/-- `stripTagsGo` maps a comma-joined list of wrapped atoms to the
comma-joined atoms. -/
theorem stripTagsGo_joinWrap (tg : String) (htgne : tg.data ≠ [])
    (htg : ∀ c ∈ tg.data, c ≠ ']') :
    ∀ (opts : List String) (rest : List Char),
      (∀ o ∈ opts, ∀ c ∈ o.data, c ≠ '[') →
      stripTagsGo ((joinComma (opts.map (fun o => wrapTag tg o))).data ++ rest) =
        (joinComma opts).data ++ stripTagsGo rest := by
  intro opts
  induction opts with
  | nil => intro rest _; simp [joinComma]
  | cons o os ih =>
      intro rest h
      cases os with
      | nil =>
          simp only [List.map_cons, List.map_nil, joinComma]
          exact stripTagsGo_wrap tg o rest htgne htg (h o (by simp))
      | cons o2 os2 =>
          have hcomma : (", " : String).data = [',', ' '] := rfl
          have hmap : joinComma ((o :: o2 :: os2).map (fun x => wrapTag tg x)) =
              wrapTag tg o ++ ", " ++ joinComma ((o2 :: os2).map (fun x => wrapTag tg x)) := by
            simp [joinComma]
          have hjoin : joinComma (o :: o2 :: os2) = o ++ ", " ++ joinComma (o2 :: os2) := by
            simp [joinComma]
          rw [hmap, hjoin]
          have hshape :
              (wrapTag tg o ++ ", " ++ joinComma ((o2 :: os2).map (fun x => wrapTag tg x))).data
                ++ rest =
              (wrapTag tg o).data ++
                (',' :: ' ' ::
                  ((joinComma ((o2 :: os2).map (fun x => wrapTag tg x))).data ++ rest)) := by
            simp [strData, List.append_assoc, hcomma]
          rw [hshape,
            stripTagsGo_wrap tg o _ htgne htg (h o (by simp)),
            stripTagsGo_cons ',' _ (by decide), stripTagsGo_cons ' ' _ (by decide),
            ih _ (fun x hx => h x (by simp [hx]))]
          simp [strData, List.append_assoc, hcomma]

/-- For a clean action the stripped rendered invocation has exactly the
padded invocation length. -/
theorem stripInvocationLen (a : PAction) (hc : cleanAction a = true) :
    (stripTags (formatActionInvocation a)).length = paddedInvocationLen a := by
  have hc3 := hc
  simp only [cleanAction, Bool.and_eq_true, List.all_eq_true, decide_eq_true_eq] at hc3
  obtain ⟨⟨hopts, hmv⟩, hdest⟩ := hc3
  have hlen : ∀ s : String, (stripTags s).length = (stripTagsGo s.data).length := by
    intro s; rfl
  have hsp : ∀ s : List Char, stripTagsGo (' ' :: s) = ' ' :: stripTagsGo s :=
    fun s => stripTagsGo_cons ' ' s (by decide)
  by_cases h0 : a.optionStrings = []
  · by_cases h1 : optTruthy (a.metavar) = true
    · have hinv : formatActionInvocation a =
          wrapTag "argparse.metavar" (a.metavar.getD "") := by
        unfold formatActionInvocation
        rw [if_pos h0, if_pos h1]
      have hpad : paddedInvocationLen a = (a.metavar.getD "").length := by
        unfold paddedInvocationLen
        rw [if_pos h0, if_pos h1]
      rw [hinv, hpad, hlen,
        stripTagsGo_wrap_nil "argparse.metavar" _ (by decide) (by decide) hmv]
      rfl
    · by_cases h2 : a.dest ≠ SUPPRESS
      · have hinv : formatActionInvocation a = wrapTag "argparse.metavar" (pyUpper a.dest) := by
          unfold formatActionInvocation
          rw [if_pos h0, if_neg h1, if_pos h2]
        have hpad : paddedInvocationLen a = (pyUpper a.dest).length := by
          unfold paddedInvocationLen
          rw [if_pos h0, if_neg h1, if_pos h2]
        rw [hinv, hpad, hlen,
          stripTagsGo_wrap_nil "argparse.metavar" _ (by decide) (by decide) hdest]
        rfl
      · have hinv : formatActionInvocation a = "" := by
          unfold formatActionInvocation
          rw [if_pos h0, if_neg h1, if_neg h2]
        have hpad : paddedInvocationLen a = 0 := by
          unfold paddedInvocationLen
          rw [if_pos h0, if_neg h1, if_neg h2]
        rw [hinv, hpad]
        rfl
  · have hargsOpts : ∀ o ∈ a.optionStrings, ∀ c ∈ o.data, c ≠ '[' := hopts
    have hjoinLen : ∀ rest : List Char,
        stripTagsGo ((joinComma (a.optionStrings.map
            (fun o => wrapTag "argparse.args" o))).data ++ rest) =
          (joinComma a.optionStrings).data ++ stripTagsGo rest :=
      fun rest =>
        stripTagsGo_joinWrap "argparse.args" (by decide) (by decide) a.optionStrings rest hargsOpts
    have hwrapMv : stripTagsGo (wrapTag "argparse.metavar" (a.metavar.getD "")).data =
        (a.metavar.getD "").data :=
      stripTagsGo_wrap_nil "argparse.metavar" _ (by decide) (by decide) hmv
    by_cases hp : a.optionStrings.length = 1 ∧
        strStartsWith (a.optionStrings.headD "") "--" = true
    · by_cases h1 : optTruthy (a.metavar) = true
      · have hinv : formatActionInvocation a =
            "    " ++ joinComma (a.optionStrings.map (fun o => wrapTag "argparse.args" o)) ++
              " " ++ wrapTag "argparse.metavar" (a.metavar.getD "") := by
          unfold formatActionInvocation
          rw [if_neg h0]
          simp only [if_pos hp, if_pos h1]
        have hpad : paddedInvocationLen a =
            (joinComma a.optionStrings).length + 4 + (1 + (a.metavar.getD "").length) := by
          unfold paddedInvocationLen
          rw [if_neg h0]
          simp only [if_pos hp, if_pos h1]
        have hshape :
            ("    " ++ joinComma (a.optionStrings.map (fun o => wrapTag "argparse.args" o)) ++
                " " ++ wrapTag "argparse.metavar" (a.metavar.getD "")).data =
            ' ' :: ' ' :: ' ' :: ' ' ::
              ((joinComma (a.optionStrings.map (fun o => wrapTag "argparse.args" o))).data ++
                (' ' :: (wrapTag "argparse.metavar" (a.metavar.getD "")).data)) := by
          have h4 : ("    " : String).data = [' ', ' ', ' ', ' '] := rfl
          have h1s : (" " : String).data = [' '] := rfl
          simp [strData, List.append_assoc, h4, h1s]
        rw [hinv, hpad, hlen, hshape, hsp, hsp, hsp, hsp, hjoinLen, hsp, hwrapMv]
        simp only [List.length_cons, List.length_append, String.length]
        omega
      · have hinv : formatActionInvocation a =
            "    " ++ joinComma (a.optionStrings.map (fun o => wrapTag "argparse.args" o)) := by
          unfold formatActionInvocation
          rw [if_neg h0]
          simp only [if_pos hp, if_neg h1]
        have hpad : paddedInvocationLen a = (joinComma a.optionStrings).length + 4 + 0 := by
          unfold paddedInvocationLen
          rw [if_neg h0]
          simp only [if_pos hp, if_neg h1]
        have hshape :
            ("    " ++ joinComma (a.optionStrings.map (fun o => wrapTag "argparse.args" o))).data =
            ' ' :: ' ' :: ' ' :: ' ' ::
              ((joinComma (a.optionStrings.map (fun o => wrapTag "argparse.args" o))).data ++ []) := by
          have h4 : ("    " : String).data = [' ', ' ', ' ', ' '] := rfl
          simp [strData, h4]
        rw [hinv, hpad, hlen, hshape, hsp, hsp, hsp, hsp, hjoinLen, stripTagsGo_nil]
        simp only [List.length_cons, List.length_append, List.length_nil, String.length]
    · by_cases h1 : optTruthy (a.metavar) = true
      · have hinv : formatActionInvocation a =
            joinComma (a.optionStrings.map (fun o => wrapTag "argparse.args" o)) ++
              " " ++ wrapTag "argparse.metavar" (a.metavar.getD "") := by
          unfold formatActionInvocation
          rw [if_neg h0]
          simp only [if_neg hp, if_pos h1]
        have hpad : paddedInvocationLen a =
            (joinComma a.optionStrings).length + 0 + (1 + (a.metavar.getD "").length) := by
          unfold paddedInvocationLen
          rw [if_neg h0]
          simp only [if_neg hp, if_pos h1]
        have hshape :
            (joinComma (a.optionStrings.map (fun o => wrapTag "argparse.args" o)) ++
                " " ++ wrapTag "argparse.metavar" (a.metavar.getD "")).data =
            (joinComma (a.optionStrings.map (fun o => wrapTag "argparse.args" o))).data ++
              (' ' :: (wrapTag "argparse.metavar" (a.metavar.getD "")).data) := by
          have h1s : (" " : String).data = [' '] := rfl
          simp [strData, List.append_assoc, h1s]
        rw [hinv, hpad, hlen, hshape, hjoinLen, hsp, hwrapMv]
        simp only [List.length_cons, List.length_append, String.length]
        omega
      · have hinv : formatActionInvocation a =
            joinComma (a.optionStrings.map (fun o => wrapTag "argparse.args" o)) := by
          unfold formatActionInvocation
          rw [if_neg h0]
          simp only [if_neg hp, if_neg h1]
        have hpad : paddedInvocationLen a = (joinComma a.optionStrings).length + 0 + 0 := by
          unfold paddedInvocationLen
          rw [if_neg h0]
          simp only [if_neg hp, if_neg h1]
        have hshape :
            (joinComma (a.optionStrings.map (fun o => wrapTag "argparse.args" o))).data =
            (joinComma (a.optionStrings.map (fun o => wrapTag "argparse.args" o))).data ++ [] := by
          simp
        rw [hinv, hpad, hlen, hshape, hjoinLen, stripTagsGo_nil]
        simp only [List.length_append, List.length_nil, String.length]

/-- The running-maximum contribution of one clean action agrees between the
source computation and the padded invocation length. -/
theorem widthContrib (a : PAction) (hc : cleanAction a = true) (m : Nat) :
    (if formatActionInvocation a ≠ "" then
        max m (stripTags (formatActionInvocation a)).length
      else m) = max m (paddedInvocationLen a) := by
  have hs := stripInvocationLen a hc
  by_cases h : formatActionInvocation a ≠ ""
  · rw [if_pos h, hs]
  · rw [if_neg h]
    push_neg at h
    rw [← hs, h]
    simp [stripTags, stripTagsGo, stripTagsF]

/-! ## Helper lemmas about the highlighting scanner -/

theorem charAt_some_lt (s : List Char) (j : Nat) (c : Char) (h : charAt s j = some c) :
    j < s.length := by
  by_contra hle
  push_neg at hle
  unfold charAt at h
  rw [List.drop_eq_nil_of_le hle] at h
  cases h

theorem charAt_mem (s : List Char) (j : Nat) (c : Char) (h : charAt s j = some c) :
    c ∈ s := by
  unfold charAt at h
  have : c ∈ s.drop j := by
    cases hd : s.drop j with
    | nil => rw [hd] at h; cases h
    | cons x xs =>
        rw [hd] at h
        simp only [List.head?_cons, Option.some.injEq] at h
        subst h
        exact List.mem_cons_self x xs
  exact List.drop_subset j s this

theorem take_takeWhile {α : Type} (p : α → Bool) :
    ∀ l : List α, l.take (l.takeWhile p).length = l.takeWhile p := by
  intro l
  induction l with
  | nil => rfl
  | cons a as ih =>
      by_cases hp : p a = true
      · simp [List.takeWhile_cons, hp, ih]
      · simp [List.takeWhile_cons, hp]

theorem takeWhile_le_length {α : Type} (p : α → Bool) (l : List α) :
    (l.takeWhile p).length ≤ l.length :=
  List.length_le_of_sublist (List.takeWhile_sublist p)

theorem slice_drop_take (l : List Char) (a n : Nat) :
    slice l a (a + n) = (l.drop a).take n := by
  unfold slice
  rw [Nat.add_comm a n, List.drop_take]
  simp

/-- The slice under a `takeWhile` run equals the run. -/
theorem slice_takeWhile (l : List Char) (a : Nat) (p : Char → Bool) :
    slice l a (a + ((l.drop a).takeWhile p).length) = (l.drop a).takeWhile p := by
  rw [slice_drop_take]
  exact take_takeWhile p (l.drop a)

theorem stylize_plain (t : RText) (a b : Nat) (sty : String) :
    (stylize t a b sty).plain = t.plain := by
  unfold stylize
  split <;> rfl

theorem processMatchText_plain (opts : List (List Char × Option (List Char)))
    (plain : List Char) (t : RText) (m : RMatch) :
    (processMatchText opts plain t m).plain = t.plain := by
  obtain ⟨kind, mstart, mstop⟩ := m
  cases kind with
  | progOnly a b => simp [processMatchText, stylize_plain]
  | progCmd pa pb ca cb => simp [processMatchText, stylize_plain]
  | version a b => simp [processMatchText, stylize_plain]
  | backtick a b =>
      simp only [processMatchText]
      split
      · exact stylize_plain ..
      · split
        · rfl
        · exact stylize_plain ..
  | argsTok a b mv =>
      simp only [processMatchText]
      repeat' split
      all_goals simp [stylize_plain]

theorem foldProcess_plain (opts : List (List Char × Option (List Char)))
    (plain : List Char) :
    ∀ (ms : List RMatch) (t : RText),
      (ms.foldl (processMatchText opts plain) t).plain = t.plain := by
  intro ms
  induction ms with
  | nil => intro t; rfl
  | cons m ms ih =>
      intro t
      rw [List.foldl_cons, ih, processMatchText_plain]

theorem highlightStep2Text_plain (opts : List (List Char × Option (List Char)))
    (pp : Option ProgPat) (t : RText) :
    (highlightStep2Text opts pp t).plain = t.plain :=
  foldProcess_plain opts t.plain (finditer pp t.plain) t

theorem stripBt_no_bt (s : List Char) : btChar ∉ stripBt s := by
  intro hmem
  have := List.mem_filter.mp hmem
  simp at this

theorem appendText_no_bt (acc : RText) (seg : List Char) (sty : Option String)
    (hacc : btChar ∉ acc.plain) (hseg : btChar ∉ seg) :
    btChar ∉ (appendText acc seg sty).plain := by
  unfold appendText
  split
  · exact hacc
  · intro hmem
    rcases List.mem_append.mp hmem with h | h
    · exact hacc h
    · exact hseg h

theorem removeBtGo_no_bt (plain : List Char) :
    ∀ (spans : List Span) (lastEnd : Nat) (acc : RText),
      btChar ∉ acc.plain → btChar ∉ (removeBtGo plain spans lastEnd acc).plain := by
  intro spans
  induction spans with
  | nil =>
      intro lastEnd acc hacc
      unfold removeBtGo
      split
      · exact appendText_no_bt _ _ _ hacc (stripBt_no_bt _)
      · exact hacc
  | cons sp rest ih =>
      intro lastEnd acc hacc
      unfold removeBtGo
      refine ih sp.stop _ ?_
      refine appendText_no_bt _ _ _ ?_ (stripBt_no_bt _)
      split
      · exact appendText_no_bt _ _ _ hacc (stripBt_no_bt _)
      · exact hacc

theorem removeBt_no_bt (t : RText) : btChar ∉ (removeBackticksPreserveStyle t).plain :=
  removeBtGo_no_bt t.plain t.spans 0 ⟨[], []⟩ (by intro h; cases h)


theorem litAt_le (s : List Char) (i : Nat) (lit : List Char) (hne : lit ≠ [])
    (h : litAt s i lit = true) : i < s.length ∧ i + lit.length ≤ s.length := by
  unfold litAt at h
  simp only [decide_eq_true_eq] at h
  have h1 : ((s.drop i).take lit.length).length = lit.length := by rw [h]
  rw [List.length_take, List.length_drop] at h1
  have hpos : 0 < lit.length := List.length_pos.mpr hne
  omega

theorem tryProg_some (pp : ProgPat) (s : List Char) (i : Nat) (m : RMatch)
    (h : tryProg pp s i = some m) :
    MatchWF s m ∧ m.start = i ∧ i < m.stop ∧ m.stop ≤ s.length := by
  unfold tryProg at h
  split at h
  · cases h
  · next hmain =>
    split at h
    · next hcond =>
      obtain ⟨hwb1, hlit, hwb2⟩ := hcond
      have hle := litAt_le s i pp.main hmain hlit
      have hm := List.length_pos.mpr hmain
      cases hsub : pp.sub with
      | none =>
          rw [hsub] at h
          simp only [Option.some.injEq] at h
          subst h
          refine ⟨?_, rfl, ?_, ?_⟩ <;> dsimp only [MatchWF]
          · exact ⟨rfl, rfl, by omega, by omega⟩
          · omega
          · omega
      | some sub =>
          rw [hsub] at h
          dsimp only at h
          split at h
          · next hcond2 =>
            obtain ⟨hsne, hws, hwb3, hlit2, hwb4⟩ := hcond2
            have hle2 := litAt_le s (i + pp.main.length +
              ((s.drop (i + pp.main.length)).takeWhile Char.isWhitespace).length) sub hsne hlit2
            simp only [Option.some.injEq] at h
            subst h
            have hs := List.length_pos.mpr hsne
            have hw := List.length_pos.mpr hws
            refine ⟨?_, rfl, ?_, ?_⟩ <;> dsimp only [MatchWF]
            · exact ⟨rfl, rfl, by omega, by omega, by omega, by omega⟩
            · omega
            · omega
          · simp only [Option.some.injEq] at h
            subst h
            refine ⟨?_, rfl, ?_, ?_⟩ <;> dsimp only [MatchWF]
            · exact ⟨rfl, rfl, by omega, by omega⟩
            · omega
            · omega
    · cases h
theorem tryBacktick_some (s : List Char) (i : Nat) (m : RMatch)
    (h : tryBacktick s i = some m) :
    MatchWF s m ∧ m.start = i ∧ i < m.stop ∧ m.stop ≤ s.length := by
  unfold tryBacktick at h
  split at h
  · next hb =>
    dsimp only at h
    split at h
    · next hcond =>
      obtain ⟨hne, hclose⟩ := hcond
      simp only [Option.some.injEq] at h
      subst h
      have hlen : 0 < ((s.drop (i + 1)).takeWhile (fun c => c ≠ btChar)).length :=
        List.length_pos.mpr hne
      have hlt := charAt_some_lt s _ _ hclose
      have hcontent : btContent s i
          (i + ((s.drop (i + 1)).takeWhile (fun c => c ≠ btChar)).length + 2) =
          (s.drop (i + 1)).takeWhile (fun c => c ≠ btChar) := by
        unfold btContent
        have harith : i + ((s.drop (i + 1)).takeWhile (fun c => c ≠ btChar)).length + 2 - 1 =
            (i + 1) + ((s.drop (i + 1)).takeWhile (fun c => c ≠ btChar)).length := by omega
        rw [harith]
        exact slice_takeWhile s (i + 1) (fun c => c ≠ btChar)
      refine ⟨?_, rfl, ?_, ?_⟩ <;> dsimp only [MatchWF]
      · refine ⟨rfl, rfl, by omega, by omega, hb, ?_, ?_⟩
        · rw [hcontent]; exact hne
        · rw [hcontent]
          intro hmem
          have := List.mem_takeWhile_imp hmem
          simp at this
      · omega
      · omega
    · cases h
  · cases h

theorem tryArgs_some (s : List Char) (i : Nat) (m : RMatch)
    (h : tryArgs s i = some m) :
    MatchWF s m ∧ m.start = i ∧ i < m.stop ∧ m.stop ≤ s.length := by
  unfold tryArgs at h
  split at h
  · next hdash =>
    dsimp only at h
    split at h
    · cases h
    · next hp heq =>
      have hpfacts : i + 2 ≤ hp ∧ hp ≤ s.length := by
        split at heq
        · next hc =>
          obtain ⟨_, hany⟩ := hc
          have hlt2 : i + 2 < s.length := by
            cases ha : charAt s (i + 2) with
            | none => rw [ha] at hany; cases hany
            | some c => exact charAt_some_lt s _ _ ha
          simp only [Option.some.injEq] at heq
          omega
        · split at heq
          · next hany =>
            have hlt1 : i + 1 < s.length := by
              cases ha : charAt s (i + 1) with
              | none => rw [ha] at hany; cases hany
              | some c => exact charAt_some_lt s _ _ ha
            simp only [Option.some.injEq] at heq
            omega
          · cases heq
      obtain ⟨hp2, hple⟩ := hpfacts
      have hrun := takeWhile_le_length isTokChar (s.drop hp)
      rw [List.length_drop] at hrun
      have hws := takeWhile_le_length Char.isWhitespace
        (s.drop (hp + ((s.drop hp).takeWhile isTokChar).length))
      rw [List.length_drop] at hws
      split at h
      · next hcond =>
        obtain ⟨hwsne, hmvne⟩ := hcond
        have hwpos := List.length_pos.mpr hwsne
        have hmpos := List.length_pos.mpr hmvne
        have hmv := takeWhile_le_length (fun c => ¬ c.isWhitespace)
          (s.drop (hp + ((s.drop hp).takeWhile isTokChar).length +
            ((s.drop (hp + ((s.drop hp).takeWhile isTokChar).length)).takeWhile
              Char.isWhitespace).length))
        rw [List.length_drop] at hmv
        simp only [Option.some.injEq] at h
        subst h
        refine ⟨?_, rfl, ?_, ?_⟩ <;> dsimp only [MatchWF]
        · exact ⟨rfl, by omega, rfl, by omega, by omega, by omega⟩
        · omega
        · omega
      · simp only [Option.some.injEq] at h
        subst h
        refine ⟨?_, rfl, ?_, ?_⟩ <;> dsimp only [MatchWF]
        · exact ⟨rfl, by omega, rfl, by omega⟩
        · omega
        · omega
  · cases h

theorem tryVersionFrom_some (s : List Char) (i d0 : Nat) (m : RMatch)
    (hd0 : i ≤ d0) (h : tryVersionFrom s i d0 = some m) :
    MatchWF s m ∧ m.start = i ∧ i < m.stop ∧ m.stop ≤ s.length := by
  unfold tryVersionFrom at h
  dsimp only at h
  split at h
  · cases h
  · next hr1 =>
    split at h
    · split at h
      · cases h
      · next hr2 =>
        split at h
        · next hdot2 =>
          split at h
          · cases h
          · next hr3 =>
            split at h
            · simp only [Option.some.injEq] at h
              subst h
              have hlt := charAt_some_lt s _ _ hdot2
              have h3 := takeWhile_le_length Char.isDigit
                (s.drop (d0 + ((s.drop d0).takeWhile Char.isDigit).length + 1 +
                  ((s.drop (d0 + ((s.drop d0).takeWhile Char.isDigit).length + 1)).takeWhile
                    Char.isDigit).length + 1))
              rw [List.length_drop] at h3
              have hr1pos : 0 < ((s.drop d0).takeWhile Char.isDigit).length :=
                List.length_pos.mpr hr1
              refine ⟨?_, rfl, ?_, ?_⟩ <;> dsimp only [MatchWF]
              · exact ⟨rfl, rfl, by omega, by omega⟩
              · omega
              · omega
            · cases h
        · cases h
    · cases h

theorem tryVersion_some (s : List Char) (i : Nat) (m : RMatch)
    (h : tryVersion s i = some m) :
    MatchWF s m ∧ m.start = i ∧ i < m.stop ∧ m.stop ≤ s.length := by
  unfold tryVersion at h
  split at h
  · refine tryVersionFrom_some s i _ m ?_ h
    split <;> omega
  · cases h

/-- A successful try at position `i` yields a well-formed match starting at
`i` that consumes at least one character and stays within the text. -/
theorem tryMatchAt_wf (pp : Option ProgPat) (s : List Char) (i : Nat) (m : RMatch)
    (h : tryMatchAt pp s i = some m) :
    MatchWF s m ∧ m.start = i ∧ i < m.stop ∧ m.stop ≤ s.length := by
  unfold tryMatchAt at h
  cases hA : (match pp with | some q => tryProg q s i | none => none) with
  | some mA =>
      rw [hA] at h
      simp only [Option.some_orElse] at h
      cases h
      cases pp with
      | some q => exact tryProg_some q s i m hA
      | none => cases hA
  | none =>
      rw [hA] at h
      simp only [Option.none_orElse] at h
      cases hB : tryBacktick s i with
      | some mB =>
          rw [hB] at h
          simp only [Option.some_orElse] at h
          cases h
          exact tryBacktick_some s i m hB
      | none =>
          rw [hB] at h
          simp only [Option.none_orElse] at h
          cases hC : tryArgs s i with
          | some mC =>
              rw [hC] at h
              simp only [Option.some_orElse] at h
              cases h
              exact tryArgs_some s i m hC
          | none =>
              rw [hC] at h
              simp only [Option.none_orElse] at h
              exact tryVersion_some s i m h

/-- Every reported match arises from a successful try at some position at
or after the scan start. -/
theorem finditerGo_mem (pp : Option ProgPat) (s : List Char) :
    ∀ (fuel i : Nat) (m : RMatch), m ∈ finditerGo pp s i fuel →
      ∃ j, i ≤ j ∧ tryMatchAt pp s j = some m := by
  intro fuel
  induction fuel with
  | zero => intro i m hm; cases hm
  | succ f ih =>
      intro i m hm
      unfold finditerGo at hm
      split at hm
      · cases htry : tryMatchAt pp s i with
        | some m0 =>
            rw [htry] at hm
            rcases List.mem_cons.mp hm with rfl | hm2
            · exact ⟨i, le_rfl, htry⟩
            · obtain ⟨j, hj, hjm⟩ := ih m0.stop m hm2
              have hwf := tryMatchAt_wf pp s i m0 htry
              exact ⟨j, by omega, hjm⟩
        | none =>
            rw [htry] at hm
            obtain ⟨j, hj, hjm⟩ := ih (i + 1) m hm
            exact ⟨j, by omega, hjm⟩
      · cases hm

theorem finditer_wf (pp : Option ProgPat) (s : List Char) (m : RMatch)
    (hm : m ∈ finditer pp s) :
    MatchWF s m ∧ m.start < m.stop ∧ m.stop ≤ s.length := by
  obtain ⟨j, _, hj⟩ := finditerGo_mem pp s _ 0 m hm
  obtain ⟨hwf, hst, hlt, hle⟩ := tryMatchAt_wf pp s j m hj
  exact ⟨hwf, by omega, hle⟩

theorem finditerGo_lb (pp : Option ProgPat) (s : List Char) (fuel i : Nat)
    (m : RMatch) (hm : m ∈ finditerGo pp s i fuel) : i ≤ m.start := by
  obtain ⟨j, hj, hjm⟩ := finditerGo_mem pp s fuel i m hm
  have := (tryMatchAt_wf pp s j m hjm).2.1
  omega

/-- The match list is ordered: each match ends at or before the next one
starts. -/
theorem finditerGo_sorted (pp : Option ProgPat) (s : List Char) :
    ∀ (fuel i : Nat),
      List.Pairwise (fun m1 m2 => m1.stop ≤ m2.start) (finditerGo pp s i fuel) := by
  intro fuel
  induction fuel with
  | zero => intro i; exact List.Pairwise.nil
  | succ f ih =>
      intro i
      unfold finditerGo
      split
      · cases htry : tryMatchAt pp s i with
        | some m0 =>
            refine List.Pairwise.cons ?_ (ih m0.stop)
            intro m2 hm2
            exact finditerGo_lb pp s f m0.stop m2 hm2
        | none => exact ih (i + 1)
      · exact List.Pairwise.nil

theorem finditer_sorted (pp : Option ProgPat) (s : List Char) :
    List.Pairwise (fun m1 m2 => m1.stop ≤ m2.start) (finditer pp s) :=
  finditerGo_sorted pp s (s.length + 1) 0

/-- Unpacking well-formedness for a backtick match. -/
theorem matchWF_backtick (s : List Char) (m : RMatch) (a b : Nat)
    (hwf : MatchWF s m) (hk : m.kind = .backtick a b) :
    m.start = a ∧ m.stop = b ∧ a + 2 < b ∧ b ≤ s.length ∧
      charAt s a = some btChar ∧ btContent s a b ≠ [] ∧ btChar ∉ btContent s a b := by
  unfold MatchWF at hwf
  rw [hk] at hwf
  exact hwf

theorem processMatchFlag_other (opts : List (List Char × Option (List Char)))
    (plain : List Char) (flag : Bool) (m : RMatch)
    (hk : ∀ a b, m.kind ≠ .backtick a b) :
    processMatchFlag opts plain flag m = flag := by
  obtain ⟨kind, st, sp⟩ := m
  cases kind
  case backtick a b => exact absurd rfl (hk a b)
  all_goals rfl

/-- Over a backtick-free text the replacement flag stays off. -/
theorem highlightFlag_false_of_no_bt (opts : List (List Char × Option (List Char)))
    (pp : Option ProgPat) (plain : List Char) (hnb : btChar ∉ plain) :
    highlightFlag opts pp plain = false := by
  unfold highlightFlag
  have hall : ∀ m ∈ finditer pp plain, ∀ a b, m.kind ≠ .backtick a b := by
    intro m hm a b hk
    have hwf := (finditer_wf pp plain m hm).1
    have hbt := (matchWF_backtick plain m a b hwf hk).2.2.2.2.1
    exact hnb (charAt_mem _ _ _ hbt)
  have main : ∀ (ms : List RMatch), (∀ m ∈ ms, ∀ a b, m.kind ≠ .backtick a b) →
      ms.foldl (processMatchFlag opts plain) false = false := by
    intro ms
    induction ms with
    | nil => intro _; rfl
    | cons m ms ih =>
        intro hms
        rw [List.foldl_cons, processMatchFlag_other _ _ _ _ (hms m (by simp))]
        exact ih (fun x hx => hms x (by simp [hx]))
  exact main _ hall

theorem stylize_append (t : RText) (a b : Nat) (sty : String) :
    stylize t a b sty = ⟨t.plain, t.spans ++ (stylize ⟨t.plain, []⟩ a b sty).spans⟩ := by
  unfold stylize
  by_cases h : a ≥ t.plain.length ∨ b ≤ a
  · rw [if_pos h, if_pos h]
    simp
  · rw [if_neg h, if_neg h]
    simp

/-- A span reported by `stylize` is either inherited or freshly placed at
`[a, min len b)`. -/
theorem stylize_spans_within (t : RText) (a b : Nat) (sty : String) (sp : Span)
    (h : sp ∈ (stylize t a b sty).spans) :
    sp ∈ t.spans ∨ (sp.start = a ∧ sp.stop ≤ b ∧ sp.style = sty) := by
  unfold stylize at h
  split at h
  · exact Or.inl h
  · rcases List.mem_append.mp h with h1 | h1
    · exact Or.inl h1
    · right
      have := List.mem_singleton.mp h1
      subst this
      exact ⟨rfl, Nat.min_le_right _ _, rfl⟩

/-- `processMatchText` only appends spans: its result is the input plus the
match's own spans computed over the same plain text. -/
theorem processMatchText_append (opts : List (List Char × Option (List Char)))
    (plain : List Char) (t : RText) (m : RMatch) (hp : t.plain = plain) :
    processMatchText opts plain t m = ⟨t.plain, t.spans ++ matchSpans opts plain m⟩ := by
  subst hp
  unfold matchSpans
  obtain ⟨kind, st, sp0⟩ := m
  cases kind with
  | progOnly a b =>
      simp only [processMatchText]
      rw [stylize_append]
  | progCmd pa pb ca cb =>
      simp only [processMatchText]
      rw [stylize_append (stylize t pa pb "argparse.prog"),
        stylize_append t pa pb "argparse.prog", stylize_append (stylize _ _ _ _),
        stylize_append (⟨t.plain, []⟩ : RText) pa pb "argparse.prog"]
      simp [stylize_plain, List.append_assoc]
  | version a b =>
      simp only [processMatchText]
      rw [stylize_append]
  | backtick a b =>
      simp only [processMatchText]
      split
      · rw [stylize_append]
      · split
        · simp
        · rw [stylize_append]
  | argsTok a b mv =>
      simp only [processMatchText]
      split
      · next entryMv heq =>
        cases mv with
        | none =>
            simp only
            rw [stylize_append]
        | some q =>
            simp only
            split
            · rw [stylize_append (stylize t a b "argparse.args"),
                stylize_append t a b "argparse.args",
                stylize_append (stylize (⟨t.plain, []⟩ : RText) a b "argparse.args"),
                stylize_append (⟨t.plain, []⟩ : RText) a b "argparse.args"]
              simp [stylize_plain, List.append_assoc]
            · rw [stylize_append]
      · simp

/-- The spans of one well-formed match lie within the match's extent. -/
theorem matchSpans_within (opts : List (List Char × Option (List Char)))
    (plain : List Char) (m : RMatch) (hwf : MatchWF plain m) :
    ∀ sp ∈ matchSpans opts plain m, m.start ≤ sp.start ∧ sp.stop ≤ m.stop := by
  intro sp hsp
  unfold matchSpans at hsp
  obtain ⟨kind, st, sp0⟩ := m
  dsimp only
  cases kind with
  | progOnly a b =>
      obtain ⟨h1, h2, h3, h4⟩ := hwf
      dsimp only at h1 h2
      simp only [processMatchText] at hsp
      rcases stylize_spans_within _ _ _ _ _ hsp with h | ⟨ha, hb, _⟩
      · cases h
      · omega
  | version a b =>
      obtain ⟨h1, h2, h3, h4⟩ := hwf
      dsimp only at h1 h2
      simp only [processMatchText] at hsp
      rcases stylize_spans_within _ _ _ _ _ hsp with h | ⟨ha, hb, _⟩
      · cases h
      · omega
  | progCmd pa pb ca cb =>
      obtain ⟨h1, h2, h3, h4, h5, h6⟩ := hwf
      dsimp only at h1 h2
      simp only [processMatchText] at hsp
      rcases stylize_spans_within _ _ _ _ _ hsp with h | ⟨ha, hb, _⟩
      · rcases stylize_spans_within _ _ _ _ _ h with h0 | ⟨ha, hb, _⟩
        · cases h0
        · omega
      · omega
  | backtick a b =>
      obtain ⟨h1, h2, h3, h4, _, _, _⟩ := hwf
      dsimp only at h1 h2
      simp only [processMatchText] at hsp
      split at hsp
      · rcases stylize_spans_within _ _ _ _ _ hsp with h | ⟨ha, hb, _⟩
        · cases h
        · omega
      · split at hsp
        · cases hsp
        · rcases stylize_spans_within _ _ _ _ _ hsp with h | ⟨ha, hb, _⟩
          · cases h
          · omega
  | argsTok a b mv =>
      obtain ⟨h1, h2, hrest⟩ := hwf
      dsimp only at h1
      simp only [processMatchText] at hsp
      split at hsp
      · next entryMv heq =>
        cases mv with
        | none =>
            obtain ⟨hstop, hble⟩ := hrest
            dsimp only at hstop
            simp only at hsp
            rcases stylize_spans_within _ _ _ _ _ hsp with h | ⟨ha, hb, _⟩
            · cases h
            · omega
        | some q =>
            obtain ⟨hstop, hbq, hq12, hq2⟩ := hrest
            dsimp only at hstop
            simp only at hsp
            split at hsp
            · rcases stylize_spans_within _ _ _ _ _ hsp with h | ⟨ha, hb, _⟩
              · rcases stylize_spans_within _ _ _ _ _ h with h0 | ⟨ha, hb, _⟩
                · cases h0
                · omega
              · omega
            · rcases stylize_spans_within _ _ _ _ _ hsp with h | ⟨ha, hb, _⟩
              · cases h
              · omega
      · cases hsp

/-- The span-list effect of the whole styling pass: the input spans followed
by each match's spans in match order. -/
theorem foldProcess_append (opts : List (List Char × Option (List Char)))
    (plain : List Char) :
    ∀ (ms : List RMatch) (t : RText), t.plain = plain →
      ms.foldl (processMatchText opts plain) t =
        ⟨plain, t.spans ++ (ms.map (matchSpans opts plain)).join⟩ := by
  intro ms
  induction ms with
  | nil =>
      intro t hp
      subst hp
      simp
  | cons m ms ih =>
      intro t hp
      rw [List.foldl_cons, processMatchText_append opts plain t m hp,
        ih _ (by rw [hp])]
      simp [List.append_assoc, hp]

theorem highlightStep2Text_spans (opts : List (List Char × Option (List Char)))
    (pp : Option ProgPat) (t : RText) :
    highlightStep2Text opts pp t =
      ⟨t.plain, t.spans ++
        ((finditer pp t.plain).map (matchSpans opts t.plain)).join⟩ :=
  foldProcess_append opts t.plain (finditer pp t.plain) t rfl

/-- Every span added for a match list that contains the unknown-option
backtick match either ends before the content or starts after it. -/
theorem joinSpans_avoid (opts : List (List Char × Option (List Char)))
    (plain : List Char) (a b : Nat) :
    ∀ (ms : List RMatch),
      (∀ m ∈ ms, MatchWF plain m) →
      List.Pairwise (fun m1 m2 => m1.stop ≤ m2.start) ms →
      (RMatch.mk (.backtick a b) a b ∈ ms) →
      matchSpans opts plain ⟨.backtick a b, a, b⟩ = [] →
      ∀ sp ∈ (ms.map (matchSpans opts plain)).join,
        sp.stop ≤ a ∨ b ≤ sp.start := by
  intro ms
  induction ms with
  | nil => intro _ _ hmem; cases hmem
  | cons m0 ms ih =>
      intro hwf hpw hmem hempty sp hsp
      rw [List.map_cons] at hsp
      rcases List.mem_join.mp hsp with ⟨l, hl, hspl⟩
      rcases List.mem_cons.mp hl with rfl | hl2
      · -- the span comes from the head match
        rcases List.mem_cons.mp hmem with heq | htail
        · rw [← heq] at hspl
          rw [hempty] at hspl
          cases hspl
        · have hR := (List.pairwise_cons.mp hpw).1 _ htail
          have hin := matchSpans_within opts plain m0 (hwf m0 (by simp)) sp hspl
          left
          have hstop : m0.stop ≤ a := by
            have := hR
            simpa using this
          omega
      · -- the span comes from the tail
        have hspt : sp ∈ (ms.map (matchSpans opts plain)).join :=
          List.mem_join.mpr ⟨l, hl2, hspl⟩
        rcases List.mem_cons.mp hmem with heq | htail
        · -- the backtick match is the head; all tail matches start at or after b
          rcases List.mem_join.mp hspt with ⟨l2, hl2b, hspl2⟩
          rcases List.mem_map.mp hl2b with ⟨m2, hm2, rfl⟩
          have hin := matchSpans_within opts plain m2 (hwf m2 (by simp [hm2])) sp hspl2
          have hR := (List.pairwise_cons.mp hpw).1 _ hm2
          rw [← heq] at hR
          right
          have hb2 : b ≤ m2.start := by simpa using hR
          omega
        · exact ih (fun x hx => hwf x (by simp [hx])) (List.pairwise_cons.mp hpw).2
            htail hempty sp hspt


/-! ### Reconstruction correctness of the backtick-stripping walk -/

theorem slice_eq (l : List Char) (a b : Nat) :
    slice l a b = (l.drop a).take (b - a) := by
  simp [slice, List.drop_take]

theorem slice_append (l : List Char) (a b c : Nat) (h1 : a ≤ b) (h2 : b ≤ c) :
    slice l a c = slice l a b ++ slice l b c := by
  rw [slice_eq, slice_eq, slice_eq]
  have hc : c - a = (b - a) + (c - b) := by omega
  rw [hc, List.take_add, List.drop_drop]
  have hb : a + (b - a) = b := by omega
  rw [hb]

theorem drop_eq_slice_append (l : List Char) (a b : Nat) (h1 : a ≤ b) :
    l.drop a = slice l a b ++ l.drop b := by
  rw [slice_eq]
  have h : l.drop b = (l.drop a).drop (b - a) := by
    rw [List.drop_drop]
    congr 1
    omega
  rw [h, List.take_append_drop]

theorem slice_nil_of_ge (l : List Char) (a b : Nat) (h : b ≤ a) :
    slice l a b = [] := by
  rw [slice_eq]
  simp [Nat.sub_eq_zero_of_le h]

theorem filterMap_congr_mem {α β : Type} (f g : α → Option β) :
    ∀ (l : List α), (∀ a ∈ l, f a = g a) → l.filterMap f = l.filterMap g := by
  intro l
  induction l with
  | nil => intro _; rfl
  | cons x xs ih =>
      intro h
      rw [List.filterMap_cons, List.filterMap_cons, h x (by simp),
        ih (fun a ha => h a (by simp [ha]))]

theorem stripBt_append (u v : List Char) :
    stripBt (u ++ v) = stripBt u ++ stripBt v := by
  simp [stripBt, List.filter_append]

theorem stripBt_slice_split (plain : List Char) (x y z : Nat)
    (h1 : x ≤ y) (h2 : y ≤ z) :
    stripBt (slice plain x z) = stripBt (slice plain x y) ++ stripBt (slice plain y z) := by
  rw [slice_append plain x y z h1 h2, stripBt_append]

theorem stripBt_drop_decomp (plain : List Char) (lastEnd s e : Nat)
    (h1 : lastEnd ≤ s) (h2 : s ≤ e) :
    stripBt (plain.drop lastEnd) =
      stripBt (slice plain lastEnd s) ++ stripBt (slice plain s e) ++
        stripBt (plain.drop e) := by
  have hse := drop_eq_slice_append plain s e h2
  rw [drop_eq_slice_append plain lastEnd s h1, hse, stripBt_append, stripBt_append,
    List.append_assoc]

theorem stripBt_of_no_bt (s : List Char) (h : btChar ∉ s) : stripBt s = s := by
  unfold stripBt
  apply List.filter_eq_self.mpr
  intro c hc
  have hne : c ≠ btChar := fun he => h (he ▸ hc)
  simp [hne]

theorem appendText_none (t : RText) (seg : List Char) :
    appendText t seg none = ⟨t.plain ++ seg, t.spans⟩ := by
  unfold appendText
  split
  · next h => subst h; simp
  · simp

theorem appendText_nil (t : RText) (sty : Option String) :
    appendText t [] sty = t := by
  unfold appendText
  simp

theorem appendText_some_ne (t : RText) (seg : List Char) (sty : String)
    (h : seg ≠ []) :
    appendText t seg (some sty) =
      ⟨t.plain ++ seg, t.spans ++ [⟨t.plain.length, t.plain.length + seg.length, sty⟩]⟩ := by
  unfold appendText
  rw [if_neg h]

theorem SpansWF_ge (plain : List Char) :
    ∀ (l : List Span) (lo : Nat), SpansWF plain l lo → ∀ sp ∈ l, lo ≤ sp.start := by
  intro l
  induction l with
  | nil => intro lo _ sp h; cases h
  | cons sp0 rest ih =>
      intro lo hwf sp hsp
      obtain ⟨h1, h2, h3, h4⟩ := hwf
      rcases List.mem_cons.mp hsp with rfl | htail
      · exact h1
      · have := ih sp0.stop h4 sp htail
        omega

theorem SpansWF_mono (plain : List Char) (l : List Span) (lo lo2 : Nat)
    (hwf : SpansWF plain l lo) (h : lo2 ≤ lo) : SpansWF plain l lo2 := by
  cases l with
  | nil => trivial
  | cons sp rest =>
      obtain ⟨h1, h2, h3, h4⟩ := hwf
      exact ⟨by omega, h2, h3, h4⟩

theorem SpansWF_append (plain : List Char) :
    ∀ (l1 l2 : List Span) (lo mid : Nat), SpansWF plain l1 lo →
      (∀ sp ∈ l1, sp.stop ≤ mid) → SpansWF plain l2 mid → lo ≤ mid →
      SpansWF plain (l1 ++ l2) lo := by
  intro l1
  induction l1 with
  | nil =>
      intro l2 lo mid _ _ h2 hlm
      exact SpansWF_mono plain l2 mid lo h2 hlm
  | cons sp rest ih =>
      intro l2 lo mid hwf hub h2 hlm
      obtain ⟨ha, hb, hc, hd⟩ := hwf
      refine ⟨ha, hb, hc, ?_⟩
      exact ih l2 sp.stop mid hd (fun x hx => hub x (by simp [hx])) h2
        (hub sp (by simp))

/-- The key step-congruence: consuming the plain text up to `mid` and
crediting the emitted prefix accordingly does not change where later spans
land. -/
theorem shiftFrom_shift (plain : List Char) (lastEnd mid base : Nat) (sp2 : Span)
    (h1 : lastEnd ≤ mid) (h2 : mid ≤ sp2.start) :
    shiftFrom plain mid (base + (stripBt (slice plain lastEnd mid)).length) sp2 =
      shiftFrom plain lastEnd base sp2 := by
  unfold shiftFrom
  dsimp only
  have hlen : (stripBt (slice plain lastEnd sp2.start)).length =
      (stripBt (slice plain lastEnd mid)).length +
        (stripBt (slice plain mid sp2.start)).length := by
    rw [stripBt_slice_split plain lastEnd mid sp2.start h1 h2, List.length_append]
  split
  · rfl
  · simp only [Option.some.injEq, Span.mk.injEq]
    refine ⟨by omega, by omega, by trivial⟩

/-- `_remove_backticks_preserve_style`'s loop, solved in closed form: on a
well-ordered span list it emits the de-backticked remainder of the plain
text and relocates every span by `shiftFrom`. -/
theorem removeBtGo_spec (plain : List Char) :
    ∀ (spans : List Span) (lastEnd : Nat) (acc : RText),
      SpansWF plain spans lastEnd →
      removeBtGo plain spans lastEnd acc =
        ⟨acc.plain ++ stripBt (plain.drop lastEnd),
          acc.spans ++ spans.filterMap (shiftFrom plain lastEnd acc.plain.length)⟩ := by
  intro spans
  induction spans with
  | nil =>
      intro lastEnd acc _
      unfold removeBtGo
      split
      · rw [appendText_none]
        simp
      · next h =>
        have hdrop : plain.drop lastEnd = [] := List.drop_eq_nil_of_le (by omega)
        rw [hdrop]
        simp [stripBt]
  | cons sp rest ih =>
      intro lastEnd acc hwf
      obtain ⟨hlo, hab, hble, hrest⟩ := hwf
      unfold removeBtGo
      dsimp only
      have hacc1 : (if lastEnd < sp.start then
            appendText acc (stripBt (slice plain lastEnd sp.start)) none else acc) =
          ⟨acc.plain ++ stripBt (slice plain lastEnd sp.start), acc.spans⟩ := by
        split
        · exact appendText_none acc _
        · next h =>
          rw [slice_nil_of_ge plain lastEnd sp.start (by omega)]
          simp [stripBt]
      rw [hacc1]
      have hrestge := SpansWF_ge plain rest sp.stop hrest
      by_cases hc : stripBt (slice plain sp.start sp.stop) = []
      · rw [hc, appendText_nil]
        rw [ih sp.stop _ hrest]
        dsimp only
        simp only [RText.mk.injEq]
        have hglen : (acc.plain ++ stripBt (slice plain lastEnd sp.start)).length =
            acc.plain.length + (stripBt (slice plain lastEnd sp.stop)).length := by
          rw [stripBt_slice_split plain lastEnd sp.start sp.stop hlo hab, hc]
          simp
        constructor
        · rw [stripBt_drop_decomp plain lastEnd sp.start sp.stop hlo hab, hc]
          simp [List.append_assoc]
        · have hnone : shiftFrom plain lastEnd acc.plain.length sp = none := by
            unfold shiftFrom
            dsimp only
            rw [if_pos hc]
          rw [List.filterMap_cons, hnone]
          dsimp only
          rw [hglen]
          congr 1
          apply filterMap_congr_mem
          intro sp2 hsp2
          exact shiftFrom_shift plain lastEnd sp.stop acc.plain.length sp2
            (by omega) (hrestge sp2 hsp2)
      · rw [appendText_some_ne _ _ _ hc]
        rw [ih sp.stop _ hrest]
        dsimp only
        simp only [RText.mk.injEq]
        have hglen : (acc.plain ++ stripBt (slice plain lastEnd sp.start) ++
              stripBt (slice plain sp.start sp.stop)).length =
            acc.plain.length + (stripBt (slice plain lastEnd sp.stop)).length := by
          rw [stripBt_slice_split plain lastEnd sp.start sp.stop hlo hab]
          simp [Nat.add_assoc]
        constructor
        · rw [stripBt_drop_decomp plain lastEnd sp.start sp.stop hlo hab]
          simp [List.append_assoc]
        · have hsome : shiftFrom plain lastEnd acc.plain.length sp =
              some ⟨acc.plain.length + (stripBt (slice plain lastEnd sp.start)).length,
                acc.plain.length + (stripBt (slice plain lastEnd sp.start)).length +
                  (stripBt (slice plain sp.start sp.stop)).length, sp.style⟩ := by
            unfold shiftFrom
            dsimp only
            rw [if_neg hc]
          rw [List.filterMap_cons, hsome]
          dsimp only
          rw [List.append_assoc]
          congr 1
          rw [List.singleton_append]
          congr 1
          · simp [List.length_append]
          · rw [hglen]
            apply filterMap_congr_mem
            intro sp2 hsp2
            exact shiftFrom_shift plain lastEnd sp.stop acc.plain.length sp2
              (by omega) (hrestge sp2 hsp2)

theorem shiftFrom_zero (plain : List Char) (sp : Span) :
    shiftFrom plain 0 0 sp = shiftSpan plain sp := by
  unfold shiftFrom shiftSpan
  dsimp only
  have h : slice plain 0 sp.start = plain.take sp.start := by
    simp [slice]
  rw [h]
  split
  · rfl
  · simp


/-! ### Well-formedness of the spans the styling pass produces -/

theorem stylize_full (t : RText) (a b : Nat) (sty : String) (h1 : a < b)
    (h2 : b ≤ t.plain.length) :
    stylize t a b sty = { t with spans := t.spans ++ [⟨a, b, sty⟩] } := by
  unfold stylize
  rw [if_neg (by omega), Nat.min_eq_right h2]

theorem matchWF_le (s : List Char) (m : RMatch) (hwf : MatchWF s m) :
    m.start ≤ m.stop := by
  obtain ⟨kind, st, sp0⟩ := m
  cases kind with
  | progOnly a b =>
      obtain ⟨h1, h2, h3, h4⟩ := hwf
      dsimp only at h1 h2 ⊢
      omega
  | progCmd pa pb ca cb =>
      obtain ⟨h1, h2, h3, h4, h5, h6⟩ := hwf
      dsimp only at h1 h2 ⊢
      omega
  | backtick a b =>
      obtain ⟨h1, h2, h3, h4, _, _, _⟩ := hwf
      dsimp only at h1 h2 ⊢
      omega
  | version a b =>
      obtain ⟨h1, h2, h3, h4⟩ := hwf
      dsimp only at h1 h2 ⊢
      omega
  | argsTok a b mv =>
      obtain ⟨h1, h2, hrest⟩ := hwf
      dsimp only at h1 ⊢
      cases mv with
      | none =>
          obtain ⟨h3, h4⟩ := hrest
          dsimp only at h3
          omega
      | some q =>
          obtain ⟨h3, h4, h5, h6⟩ := hrest
          dsimp only at h3
          omega

theorem matchSpans_wf (opts : List (List Char × Option (List Char)))
    (plain : List Char) (m : RMatch) (hwf : MatchWF plain m) :
    SpansWF plain (matchSpans opts plain m) m.start := by
  obtain ⟨kind, st, sp0⟩ := m
  cases kind with
  | progOnly a b =>
      obtain ⟨h1, h2, h3, h4⟩ := hwf
      dsimp only at h1 h2 ⊢
      unfold matchSpans processMatchText
      dsimp only
      rw [stylize_full _ _ _ _ h3 h4]
      refine ⟨?_, ?_, ?_, trivial⟩ <;> dsimp only <;> omega
  | version a b =>
      obtain ⟨h1, h2, h3, h4⟩ := hwf
      dsimp only at h1 h2 ⊢
      unfold matchSpans processMatchText
      dsimp only
      rw [stylize_full _ _ _ _ h3 h4]
      refine ⟨?_, ?_, ?_, trivial⟩ <;> dsimp only <;> omega
  | progCmd pa pb ca cb =>
      obtain ⟨h1, h2, h3, h4, h5, h6⟩ := hwf
      dsimp only at h1 h2 ⊢
      unfold matchSpans processMatchText
      dsimp only
      rw [stylize_full _ _ _ _ h3 (show pb ≤ plain.length by omega),
        stylize_full _ _ _ _ h5 (show cb ≤ plain.length from h6)]
      simp only [List.nil_append, List.cons_append]
      refine ⟨?_, ?_, ?_, ?_, ?_, ?_, trivial⟩ <;> dsimp only <;> omega
  | backtick a b =>
      obtain ⟨h1, h2, h3, h4, hat, hne, hnb⟩ := hwf
      dsimp only at h1 h2 ⊢
      unfold matchSpans processMatchText
      dsimp only
      split
      · rw [stylize_full _ _ _ _ (by omega) (show b - 1 ≤ plain.length by omega)]
        refine ⟨?_, ?_, ?_, trivial⟩ <;> dsimp only <;> omega
      · split
        · trivial
        · rw [stylize_full _ _ _ _ (by omega) (show b - 1 ≤ plain.length by omega)]
          refine ⟨?_, ?_, ?_, trivial⟩ <;> dsimp only <;> omega
  | argsTok a b mv =>
      obtain ⟨h1, h2, hrest⟩ := hwf
      dsimp only at h1 ⊢
      unfold matchSpans processMatchText
      dsimp only
      split
      · next entryMv heq =>
        cases mv with
        | none =>
            obtain ⟨hstop, hble2⟩ := hrest
            dsimp only at hstop
            dsimp only
            rw [stylize_full _ _ _ _ h2 (show b ≤ plain.length from hble2)]
            refine ⟨?_, ?_, ?_, trivial⟩ <;> dsimp only <;> omega
        | some q =>
            obtain ⟨hstop, hbq, hq12, hq2⟩ := hrest
            dsimp only at hstop
            dsimp only
            split
            · rw [stylize_full _ _ _ _ h2 (show b ≤ plain.length by omega),
                stylize_full _ _ _ _ hq12 (show q.2 ≤ plain.length from hq2)]
              simp only [List.nil_append, List.cons_append]
              refine ⟨?_, ?_, ?_, ?_, ?_, ?_, trivial⟩ <;> dsimp only <;> omega
            · rw [stylize_full _ _ _ _ h2 (show b ≤ plain.length by omega)]
              refine ⟨?_, ?_, ?_, trivial⟩ <;> dsimp only <;> omega
      · trivial

theorem joinSpansWF (opts : List (List Char × Option (List Char)))
    (plain : List Char) :
    ∀ (ms : List RMatch) (lo : Nat),
      (∀ m ∈ ms, MatchWF plain m) →
      List.Pairwise (fun m1 m2 => m1.stop ≤ m2.start) ms →
      (∀ m ∈ ms, lo ≤ m.start) →
      SpansWF plain ((ms.map (matchSpans opts plain)).join) lo := by
  intro ms
  induction ms with
  | nil => intro lo _ _ _; trivial
  | cons m0 ms ih =>
      intro lo hwf hpw hlo
      rw [List.map_cons]
      show SpansWF plain
        (matchSpans opts plain m0 ++ (ms.map (matchSpans opts plain)).join) lo
      apply SpansWF_append plain _ _ lo m0.stop
      · exact SpansWF_mono plain _ m0.start lo
          (matchSpans_wf opts plain m0 (hwf m0 (by simp))) (hlo m0 (by simp))
      · intro sp hsp
        exact (matchSpans_within opts plain m0 (hwf m0 (by simp)) sp hsp).2
      · apply ih m0.stop (fun x hx => hwf x (by simp [hx]))
          (List.pairwise_cons.mp hpw).2
        intro m hm2
        exact (List.pairwise_cons.mp hpw).1 m hm2
      · have hl1 := hlo m0 (by simp)
        have hl2 := matchWF_le plain m0 (hwf m0 (by simp))
        omega

/-! ### The `backtick_replacements` flag on a known backtick match -/

theorem processMatchFlag_true (opts : List (List Char × Option (List Char)))
    (plain : List Char) (m : RMatch) :
    processMatchFlag opts plain true m = true := by
  obtain ⟨kind, st, sp0⟩ := m
  cases kind with
  | backtick a b =>
      unfold processMatchFlag
      dsimp only
      split
      · rfl
      · split
        · rfl
        · rfl
  | progOnly a b => rfl
  | progCmd pa pb ca cb => rfl
  | argsTok a b mv => rfl
  | version a b => rfl

theorem foldFlag_true (opts : List (List Char × Option (List Char)))
    (plain : List Char) :
    ∀ (ms : List RMatch), ms.foldl (processMatchFlag opts plain) true = true := by
  intro ms
  induction ms with
  | nil => rfl
  | cons m0 ms ih =>
      rw [List.foldl_cons, processMatchFlag_true]
      exact ih

theorem foldFlag_mem_known (opts : List (List Char × Option (List Char)))
    (plain : List Char) (a b : Nat)
    (hk : (optLookup opts (btContent plain a b)).isSome = true) :
    ∀ (ms : List RMatch) (f : Bool), RMatch.mk (.backtick a b) a b ∈ ms →
      ms.foldl (processMatchFlag opts plain) f = true := by
  have hk2 : (optLookup opts (slice plain (a + 1) (b - 1))).isSome = true := hk
  intro ms
  induction ms with
  | nil => intro f h; cases h
  | cons m0 ms ih =>
      intro f h
      rcases List.mem_cons.mp h with heq | htail
      · rw [List.foldl_cons, ← heq]
        have hstep : processMatchFlag opts plain f ⟨.backtick a b, a, b⟩ = true := by
          unfold processMatchFlag
          dsimp only
          rw [if_pos hk2]
        rw [hstep]
        exact foldFlag_true opts plain ms
      · rw [List.foldl_cons]
        exact ih _ htail

theorem highlightFlag_true_of_known (opts : List (List Char × Option (List Char)))
    (pp : Option ProgPat) (plain : List Char) (a b : Nat)
    (hm : RMatch.mk (.backtick a b) a b ∈ finditer pp plain)
    (hk : (optLookup opts (btContent plain a b)).isSome = true) :
    highlightFlag opts pp plain = true := by
  unfold highlightFlag
  exact foldFlag_mem_known opts plain a b hk _ false hm

theorem matchSpans_backtick_known (opts : List (List Char × Option (List Char)))
    (plain : List Char) (a b : Nat)
    (hk : (optLookup opts (btContent plain a b)).isSome = true)
    (h3 : a + 2 < b) (h4 : b ≤ plain.length) :
    matchSpans opts plain ⟨.backtick a b, a, b⟩ =
      [⟨a + 1, b - 1, "argparse.args"⟩] := by
  have hk2 : (optLookup opts (slice plain (a + 1) (b - 1))).isSome = true := hk
  unfold matchSpans processMatchText
  dsimp only
  rw [if_pos hk2, stylize_full _ _ _ _ (by omega)
    (show b - 1 ≤ plain.length by omega)]
  rfl

/-! ## Claim theorems -/

/-- C10: the `no_wrap_usage` flag is stored in the configuration but never
consulted during rendering; two configurations differing only in that flag
produce identical help documents, and usage-line assembly reads only the
configured maximum width. -/
theorem C10_no_wrap_usage_unused (cfg : NConfig) (b1 b2 : Bool) (p : Parser)
    (header : Option String) (secs : List (String × String)) (st : FmtState) :
    formatHelpModel { cfg with noWrapUsage := b1 } p header secs st =
      formatHelpModel { cfg with noWrapUsage := b2 } p header secs st ∧
    buildUsageText { cfg with noWrapUsage := b1 } p = buildUsageText cfg p :=
  ⟨rfl, rfl⟩

/-- C5 counterexample: with `section_gap = 1` the code joins `"a "` and
`"b"` as `"a\n\nb"` — one blank line (`section_gap`, not `section_gap + 1`)
and trailing whitespace stripped — while the claim predicts `"a \n\n\nb"`. -/
theorem C5_counterexample :
    joinSections 1 ["a ", "b"] = "a\n\nb" ∧
      claimJoinSections 1 ["a ", "b"] = "a \n\n\nb" ∧
      joinSections 1 ["a ", "b"] ≠ claimJoinSections 1 ["a ", "b"] := by decide

/-- C5 amended: the final document drops whitespace-only sections,
right-strips each survivor, and joins with `section_gap + 1` newline
characters — that is, `section_gap` blank lines — between consecutive
sections. -/
theorem C5_join_sections_amended (gap : Nat) (sections : List String) :
    joinSections gap sections = amendedJoinSections gap sections := by
  by_cases h : sections = []
  · subst h; rfl
  · simp [joinSections, amendedJoinSections, h]

/-- C6 counterexample: for `--type` with choices `{A, B}` and help
`"Pick one of %(choices)s"`, the placeholder is replaced by the bare styled
`"A, B"`; the parenthetical `"(choices: A, B)"` the claim predicts appears
nowhere in the rendered help. -/
theorem C6_counterexample :
    formatActionHelpCore actTypeChoices =
        "Pick one of [argparse.metavar]A, B[/argparse.metavar]" ∧
      formatActionHelpCore actTypeChoices ≠ "Pick one of (choices: A, B)" ∧
      hasSub (formatActionHelpCore actTypeChoices) "(choices:" = false := by decide

/-- C6 amended: when the help text (after default handling) contains the
choices placeholder, the rendered help substitutes the comma-joined choices
(with metavar styling) in its place; the `(choices: ...)` parenthetical is
appended only when the placeholder is absent. -/
theorem C6_choices_placeholder_amended (a : PAction)
    (h1 : a.helpText.getD "" ≠ "") (h2 : a.choices ≠ [])
    (h3 : hasSub (helpAfterDefault a) "%(choices)s" = true) :
    formatActionHelpCore a =
      pyReplace (helpAfterDefault a) "%(choices)s"
        ("[argparse.metavar]" ++ joinComma a.choices ++ "[/argparse.metavar]") := by
  unfold formatActionHelpCore
  simp [h1, h2, h3]

/-- C6 witness: the amended statement at the concrete `--type` action. -/
theorem C6_witness :
    (actTypeChoices.helpText.getD "" ≠ "") ∧ (actTypeChoices.choices ≠ []) ∧
      hasSub (helpAfterDefault actTypeChoices) "%(choices)s" = true ∧
      formatActionHelpCore actTypeChoices =
        pyReplace (helpAfterDefault actTypeChoices) "%(choices)s"
          ("[argparse.metavar]" ++ joinComma actTypeChoices.choices ++ "[/argparse.metavar]") :=
  ⟨by decide, by decide, by decide,
    C6_choices_placeholder_amended actTypeChoices (by decide) (by decide) (by decide)⟩

/-- C7 counterexample: for prog `mytool`, required option `--type` (no
metavar) and optional positional `FILE` (nargs `?`), debug off, the rendered
usage plain text is not the claimed `"Usage: mytool [--type] FILE"`. -/
theorem C7_counterexample :
    markupPlain (buildUsageText {} parserMytool) ≠ "Usage: mytool [--type] FILE" := by decide

/-- C7 amended: the optional positional renders in brackets, per the
single-optional-value arity rule, so the usage plain text is
`"Usage: mytool [--type] [FILE]"`. -/
theorem C7_usage_example_amended :
    markupPlain (buildUsageText {} parserMytool) = "Usage: mytool [--type] [FILE]" := by decide

/-- C8 counterexample: after a first render against a parser whose computed
width is 16, a second render against a parser whose own computed width is 10
still reports the cached 16 — the cache is per formatter instance, not per
render pass. -/
theorem C8_counterexample :
    (createSectionTableWidth {} parserShortA
        (createSectionTableWidth {} parserVerbose ⟨none⟩).2).1 = some 16 ∧
      calcMaxArgColumnWidth parserShortA = 10 ∧
      (createSectionTableWidth {} parserShortA
          (createSectionTableWidth {} parserVerbose ⟨none⟩).2).1 ≠
        some (calcMaxArgColumnWidth parserShortA) := by decide

/-- C8 amended: with no explicitly fixed width, the first section-table
width is computed from the first parser and the cached value is reused
verbatim on the next render, whatever the parser then looks like. -/
theorem C8_width_cached_across_renders (cfg : NConfig) (p1 p2 : Parser)
    (h : cfg.argColumnWidth = none) :
    (createSectionTableWidth cfg p1 ⟨none⟩).1 = some (calcMaxArgColumnWidth p1) ∧
      (createSectionTableWidth cfg p2 (createSectionTableWidth cfg p1 ⟨none⟩).2).1 =
        some (calcMaxArgColumnWidth p1) := by
  simp [createSectionTableWidth, pyOrNat, h]

/-- C8 witness: the amended statement at the two concrete parsers. -/
theorem C8_witness :
    (({} : NConfig).argColumnWidth = none) ∧
      ((createSectionTableWidth {} parserVerbose ⟨none⟩).1 =
          some (calcMaxArgColumnWidth parserVerbose) ∧
        (createSectionTableWidth {} parserShortA
            (createSectionTableWidth {} parserVerbose ⟨none⟩).2).1 =
          some (calcMaxArgColumnWidth parserVerbose)) :=
  ⟨rfl, C8_width_cached_across_renders {} parserVerbose parserShortA rfl⟩

/-- C9 counterexample: a default-titled group (`optional arguments`) holding
a visible user-added action renders to no section at all — the renderer
returns normally (it has no raising path) and silently omits the action,
rather than failing with a hard error. -/
theorem C9_counterexample :
    (formatArgumentGroups {} parserDefaultGroup ⟨none⟩).1 = [] ∧
      actVerbose ∈ (parserDefaultGroup.actionGroups.headD ⟨none, []⟩).groupActions := by decide

/-- C9 amended: default-titled groups are silently skipped at render time —
no rendered section ever carries a default group title, and no error is
raised for a default group holding user-added actions. -/
theorem C9_default_group_skipped (cfg : NConfig) (p : Parser) (st : FmtState)
    (sec : HelpSection) (hsec : sec ∈ (formatArgumentGroups cfg p st).1) :
    sec.title ≠ "positional arguments:" ∧ sec.title ≠ "optional arguments:" := by
  have main : ∀ (gs : List PGroup) (acc : List HelpSection × List (Option String) × FmtState),
      (∀ s0 ∈ acc.1, s0.title ≠ "positional arguments:" ∧ s0.title ≠ "optional arguments:") →
      ∀ s0 ∈ (gs.foldl (fmtGroupStep cfg p) acc).1,
        s0.title ≠ "positional arguments:" ∧ s0.title ≠ "optional arguments:" := by
    intro gs
    induction gs with
    | nil => intro acc h; exact h
    | cons g rest ih => intro acc h; exact ih _ (fmtGroupStep_titles cfg p acc g h)
  have hsec2 : sec ∈ (p.actionGroups.foldl (fmtGroupStep cfg p) ([], [], st)).1 := hsec
  exact main p.actionGroups ([], [], st) (by intro s0 h0; cases h0) sec hsec2

/-- C9 witness: the amended statement at a named, rendered group. -/
theorem C9_witness :
    (HelpSection.mk "Options:" (some 16)
        [("    [argparse.args]--verbose[/argparse.args]", "Verbose")] ∈
      (formatArgumentGroups {} parserVerbose ⟨none⟩).1) ∧
      ((HelpSection.mk "Options:" (some 16)
          [("    [argparse.args]--verbose[/argparse.args]", "Verbose")]).title ≠
          "positional arguments:" ∧
        (HelpSection.mk "Options:" (some 16)
          [("    [argparse.args]--verbose[/argparse.args]", "Verbose")]).title ≠
          "optional arguments:") :=
  ⟨by decide, C9_default_group_skipped {} parserVerbose ⟨none⟩ _ (by decide)⟩

/-- C2 counterexample: a parser with the single long-only option
`--verbose` gets column width 16 (the rendered invocation carries a
four-space pad), while the claim's formula predicts 12. -/
theorem C2_counterexample :
    calcMaxArgColumnWidth parserVerbose = 16 ∧ claimColumnWidth parserVerbose = 12 ∧
      calcMaxArgColumnWidth parserVerbose ≠ claimColumnWidth parserVerbose := by decide

/-- C2 amended: for parsers whose option strings, metavars and destinations
are free of `[` (so markup stripping removes exactly the style tags), the
computed width equals `max(L + 3, 10)` where `L` additionally counts the
four-space pad of a single long-only option, and a positional's metavar
stands in for its uppercased destination when present. -/
theorem C2_column_width_amended (p : Parser) (h : cleanParser p = true) :
    calcMaxArgColumnWidth p = amendedColumnWidth p := by
  have hall : ∀ a ∈ widthScanActions p, cleanAction a = true := by
    simpa [cleanParser, List.all_eq_true] using h
  have hfold : ∀ (l : List PAction), (∀ a ∈ l, cleanAction a = true) → ∀ (m : Nat),
      l.foldl (fun m a =>
        let inv := formatActionInvocation a
        if inv ≠ "" then max m (stripTags inv).length else m) m =
      l.foldl (fun m a => max m (paddedInvocationLen a)) m := by
    intro l
    induction l with
    | nil => intro _ m; rfl
    | cons a l ih =>
        intro hl m
        simp only [List.foldl_cons]
        rw [ih (fun x hx => hl x (by simp [hx]))]
        exact congrArg (fun acc => List.foldl (fun m a => max m (paddedInvocationLen a)) acc l)
          (widthContrib a (hl a (by simp)) m)
  show max ((widthScanActions p).foldl (fun m a =>
      let inv := formatActionInvocation a
      if inv ≠ "" then max m (stripTags inv).length else m) (subNameLengthsMax p) + 3) 10 =
    amendedColumnWidth p
  rw [hfold (widthScanActions p) hall (subNameLengthsMax p)]
  rfl

/-- C2 witness: the amended statement at the `--verbose` parser. -/
theorem C2_witness :
    cleanParser parserVerbose = true ∧
      calcMaxArgColumnWidth parserVerbose = amendedColumnWidth parserVerbose :=
  ⟨by decide, C2_column_width_amended parserVerbose (by decide)⟩

/-- C4 counterexample: highlighting `` `--flag` `` (a registered option)
strips the backticks and styles the token once; a second `highlight` call
re-matches the now-bare `--flag` through the option-token alternative and
appends an identical second "args" span — the span for the token is
duplicated. -/
theorem C4_counterexample :
    (highlight optsFlag ppMytool false textFlagOnly).spans =
        [⟨0, 6, "argparse.args"⟩] ∧
      (highlight optsFlag ppMytool false
          (highlight optsFlag ppMytool false textFlagOnly)).spans =
        [⟨0, 6, "argparse.args"⟩, ⟨0, 6, "argparse.args"⟩] := by decide

/-- C4 amended: a second `highlight` call never changes the plain text — no
further backtick stripping can occur, whether or not the first call
stripped — though it may append duplicate style spans for tokens styled by
the first call. -/
theorem C4_second_highlight_plain_stable (opts : List (List Char × Option (List Char)))
    (pp : Option ProgPat) (pres : Bool) (t : RText) :
    (highlight opts pp pres (highlight opts pp pres t)).plain =
      (highlight opts pp pres t).plain := by
  set t1 := highlight opts pp pres t with ht1
  have hflag2 : ¬(pres = false ∧ highlightFlag opts pp t1.plain = true) := by
    rintro ⟨hpres, hflag⟩
    subst hpres
    by_cases h1 : highlightFlag opts pp t.plain = true
    · have hplain : t1.plain =
          (removeBackticksPreserveStyle (highlightStep2Text opts pp t)).plain := by
        rw [ht1]
        unfold highlight
        rw [if_pos ⟨rfl, h1⟩]
      have hnb : btChar ∉ t1.plain := by
        rw [hplain]
        exact removeBt_no_bt _
      rw [highlightFlag_false_of_no_bt opts pp _ hnb] at hflag
      exact Bool.false_ne_true hflag
    · have hplain : t1.plain = t.plain := by
        rw [ht1]
        unfold highlight
        rw [if_neg (by simp [h1])]
        exact highlightStep2Text_plain opts pp t
      rw [hplain] at hflag
      exact h1 hflag
  show (highlight opts pp pres t1).plain = t1.plain
  unfold highlight
  rw [if_neg hflag2]
  exact highlightStep2Text_plain opts pp t1

/-- C3 counterexample: in `"--x `--nope`"` with `--x` registered and
carrying a metavar, the option-token alternative consumes the whole
backtick span as the trailing metavar of `--x`, so highlight styles the
span `[4, 12)` — covering the backtick-delimited unknown option `--nope`
(content region `[5, 11)`) — with the "metavar" style, contradicting
"receives no highlighting at all". -/
theorem C3_counterexample :
    isOptToken (btContent textNope.plain 4 12) = true ∧
      optLookup optsXFlag (btContent textNope.plain 4 12) = none ∧
      Span.mk 4 12 "argparse.metavar" ∈ (highlight optsXFlag ppMytool false textNope).spans := by
  decide

/-- C3 amended: when the backtick span is itself matched by the compiled
pattern's backtick alternative (not consumed by an earlier match such as a
known option's trailing-metavar capture) and its content is an unregistered
option token, the styling pass adds no span over the content: every added
span ends at or before the opening backtick or starts at or after the
closing one.  (Backtick stripping only carries existing spans, so no
styling can appear later either.) -/
theorem C3_unknown_backtick_unstyled (opts : List (List Char × Option (List Char)))
    (pp : Option ProgPat) (t : RText) (a b : Nat)
    (hm : RMatch.mk (.backtick a b) a b ∈ finditer pp t.plain)
    (htok : isOptToken (btContent t.plain a b) = true)
    (hunk : optLookup opts (btContent t.plain a b) = none) :
    ∃ extra, (highlightStep2Text opts pp t).spans = t.spans ++ extra ∧
      ∀ sp ∈ extra, sp.stop ≤ a + 1 ∨ b - 1 ≤ sp.start := by
  refine ⟨((finditer pp t.plain).map (matchSpans opts t.plain)).join, ?_, ?_⟩
  · rw [highlightStep2Text_spans]
  · intro sp hsp
    have hempty : matchSpans opts t.plain ⟨.backtick a b, a, b⟩ = [] := by
      have hunk2 : optLookup opts (slice t.plain (a + 1) (b - 1)) = none := hunk
      have htok2 : isOptToken (slice t.plain (a + 1) (b - 1)) = true := htok
      simp [matchSpans, processMatchText, hunk2, htok2]
    have havoid := joinSpans_avoid opts t.plain a b (finditer pp t.plain)
      (fun m hm2 => (finditer_wf pp t.plain m hm2).1) (finditer_sorted pp t.plain)
      hm hempty sp hsp
    omega

/-- C3 witness: the amended statement at the bare `"`--nope`"` text. -/
theorem C3_witness :
    (RMatch.mk (.backtick 0 8) 0 8 ∈ finditer ppMytool textNopeOnly.plain) ∧
      isOptToken (btContent textNopeOnly.plain 0 8) = true ∧
      optLookup optsFlag (btContent textNopeOnly.plain 0 8) = none ∧
      (∃ extra, (highlightStep2Text optsFlag ppMytool textNopeOnly).spans =
          textNopeOnly.spans ++ extra ∧
        ∀ sp ∈ extra, sp.stop ≤ 0 + 1 ∨ 8 - 1 ≤ sp.start) :=
  ⟨by decide, by decide, by decide,
    C3_unknown_backtick_unstyled optsFlag ppMytool textNopeOnly 0 8
      (by decide) (by decide) (by decide)⟩


/-- C1 (counterexample): the round trip fails in two independent ways.
(i) In `--x \x60--flag\x60` with `--x` registered and carrying a truthy
metavar, the option-token alternative consumes the whole backticked span as
the metavar capture, so no backtick alternative ever fires: the flag stays
false, the backticks survive in the output plain text, and the span over the
backticked region carries the metavar style, not args.  (ii) On a pre-styled
text whose stored span list is out of ascending order after styling
(`\x60--flag\x60 ok` with a pre-existing span over `ok`), the reconstruction
walks spans in stored order and duplicates plain-text content, so the output
plain text again differs from the de-backticked input even though the
backtick alternative did match a registered option. -/
theorem C1_counterexample :
    ((optLookup optsXFlag (btContent textSwallow.plain 4 12)).isSome = true ∧
      (highlight optsXFlag ppMytool false textSwallow).plain = textSwallow.plain ∧
      (highlight optsXFlag ppMytool false textSwallow).plain ≠
        stripBt textSwallow.plain ∧
      Span.mk 4 12 "argparse.metavar" ∈
        (highlight optsXFlag ppMytool false textSwallow).spans) ∧
    (RMatch.mk (.backtick 0 8) 0 8 ∈ finditer ppMytool textStyledDup.plain ∧
      (optLookup optsFlag (btContent textStyledDup.plain 0 8)).isSome = true ∧
      (highlight optsFlag ppMytool false textStyledDup).plain =
        "--flag ok--flag ok".data ∧
      (highlight optsFlag ppMytool false textStyledDup).plain ≠
        stripBt textStyledDup.plain) :=
  ⟨⟨by decide, by decide, by decide, by decide⟩,
    by decide, by decide, by decide, by decide⟩

/-- C1 (corrected): for every text - pre-styled or not - whose stored span
list after the styling pass is in ascending, in-bounds order, and in which
the backtick-delimited span is itself matched by the backtick alternative
with its content a registered option string, `highlight` with preservation
off returns exactly the de-backticked plain text with every stored span
(pre-existing and produced alike) relocated in order by `shiftSpan`, and the
de-backticked content carries the args style at its shifted offsets.  Both
hypotheses are forced: a preceding registered option with a truthy metavar
can swallow the backticked span (no strip at all), and an out-of-order
stored span list makes the reconstruction duplicate content. -/
theorem C1_backtick_roundtrip_amended (opts : List (List Char × Option (List Char)))
    (pp : Option ProgPat) (t : RText) (a b : Nat)
    (hord : SpansWF t.plain (highlightStep2Text opts pp t).spans 0)
    (hm : RMatch.mk (.backtick a b) a b ∈ finditer pp t.plain)
    (hk : (optLookup opts (btContent t.plain a b)).isSome = true) :
    highlight opts pp false t =
      ⟨stripBt t.plain,
        (highlightStep2Text opts pp t).spans.filterMap (shiftSpan t.plain)⟩ ∧
    Span.mk (stripBt (t.plain.take (a + 1))).length
        ((stripBt (t.plain.take (a + 1))).length + (btContent t.plain a b).length)
        "argparse.args" ∈ (highlight opts pp false t).spans := by
  obtain ⟨hwf, hlt, hle⟩ := finditer_wf pp t.plain _ hm
  obtain ⟨-, -, h3, h4, hat, hcne, hcnb⟩ :=
    matchWF_backtick t.plain _ a b hwf rfl
  have hflag := highlightFlag_true_of_known opts pp t.plain a b hm hk
  have hmain : highlight opts pp false t =
      ⟨stripBt t.plain,
        (highlightStep2Text opts pp t).spans.filterMap (shiftSpan t.plain)⟩ := by
    unfold highlight
    dsimp only
    rw [if_pos ⟨rfl, hflag⟩]
    unfold removeBackticksPreserveStyle
    rw [highlightStep2Text_plain]
    rw [removeBtGo_spec t.plain _ 0 ⟨[], []⟩ hord]
    simp only [List.length_nil]
    rw [filterMap_congr_mem _ _ _ (fun sp _ => shiftFrom_zero t.plain sp)]
    simp
  refine ⟨hmain, ?_⟩
  rw [hmain]
  dsimp only
  apply List.mem_filterMap.mpr
  refine ⟨⟨a + 1, b - 1, "argparse.args"⟩, ?_, ?_⟩
  · rw [highlightStep2Text_spans]
    dsimp only
    apply List.mem_append_right
    apply List.mem_join.mpr
    refine ⟨matchSpans opts t.plain ⟨.backtick a b, a, b⟩,
      List.mem_map_of_mem _ hm, ?_⟩
    rw [matchSpans_backtick_known opts t.plain a b hk h3 h4]
    simp
  · unfold shiftSpan
    dsimp only
    have hcc : stripBt (slice t.plain (a + 1) (b - 1)) = btContent t.plain a b :=
      stripBt_of_no_bt _ hcnb
    rw [hcc, if_neg hcne]

/-- C1 witness: the pre-styled `see \x60--flag\x60 now` (with a span over
`see`) strips to `see --flag now`; the pre-existing span survives unmoved and
the de-backticked content carries the args style at offsets 4-10. -/
theorem C1_witness :
    (highlight optsFlag ppMytool false textStyledPre).plain =
      "see --flag now".data ∧
    Span.mk 0 3 "argparse.groups" ∈
      (highlight optsFlag ppMytool false textStyledPre).spans ∧
    Span.mk 4 10 "argparse.args" ∈
      (highlight optsFlag ppMytool false textStyledPre).spans := by
  have hord : SpansWF textStyledPre.plain
      (highlightStep2Text optsFlag ppMytool textStyledPre).spans 0 := by
    have hs : (highlightStep2Text optsFlag ppMytool textStyledPre).spans =
        [⟨0, 3, "argparse.groups"⟩, ⟨5, 11, "argparse.args"⟩] := by decide
    rw [hs]
    exact ⟨by decide, by decide, by decide, by decide, by decide, by decide, trivial⟩
  have h := C1_backtick_roundtrip_amended optsFlag ppMytool textStyledPre 4 12
    hord (by decide) (by decide)
  refine ⟨?_, ?_, ?_⟩
  · rw [h.1]
    decide
  · rw [h.1]
    decide
  · rw [h.1]
    decide

end Neon
